import Mathlib

/-! StrokeX: the one-stroke puzzle engine of `src/main.cpp`

A shallow embedding of the class `OneLinePuzzle` and a verification of the
properties its specification states about it.

Modelling conventions.

* The object's fields become the fields of the record `OneLinePuzzle`; every
  member function becomes a function from the old record to the new one.
* `int` is `Int`.  No operation below relies on wrap-around (signed overflow is
  undefined in C++), so integers are left unbounded.
* `float` values are exact rationals (`ℚ`).  Coordinates are only ever copied,
  and every coordinate of the level table is a whole number, so `Vector2` carries
  integers.
* `GetTime()` is an input: the functions that call it take its value `now`.
* The hit test `CalculateDistance(pos, node.position) <= nodeRadius` of
  `GetNodeAtPosition` is an input as well: a pointer position is represented by
  the predicate `near` telling which node centres lie within `nodeRadius` of it.
* `v[i]` on a `vector` with `i` outside `0 .. size-1` is undefined behaviour;
  the functions that index return `Option` and yield `none` there.
* Purely cosmetic state (particles, animated dots, the shake offset, the button
  rectangles) is left out; the fields the engine logic reads or writes are kept.
-/

namespace StrokeX

/-- The two screens of the game (`enum GameState`). -/
inductive GameState where
  | START_SCREEN
  | PLAYING
  deriving DecidableEq, Repr

/-- A point of the window (`Vector2` of raylib). -/
structure Vector2 where
  x : Int
  y : Int
  deriving DecidableEq, Repr

/-- A node is a circle point that players connect (`struct Node`). -/
structure Node where
  position : Vector2
  id : Int
  isHighlighted : Bool
  deriving DecidableEq, Repr

/-- An edge is a line connecting two nodes (`struct Edge`). -/
structure Edge where
  nodeA : Int
  nodeB : Int
  visitCount : Int
  deriving DecidableEq, Repr

/-- The engine state: the data members of `class OneLinePuzzle`. -/
structure OneLinePuzzle where
  nodes : List Node
  edges : List Edge
  currentPath : List Int
  pathPoints : List Vector2
  gameState : GameState
  isDrawing : Bool
  levelComplete : Bool
  currentLevel : Int
  maxUnlockedLevel : Int
  levelStartTime : ℚ
  levelEndTime : ℚ
  currentScore : Int
  totalScore : Int
  timerRunning : Bool
  showHintPopup : Bool
  hintPopupAlpha : ℚ
  hintPopupFadingIn : Bool
  puzzleFailed : Bool
  shakeTimer : ℚ
  shakeIntensity : ℚ

/-- The state built by the constructor `OneLinePuzzle()` (lines 89-118). -/
def OneLinePuzzle.new : OneLinePuzzle where
  nodes := []
  edges := []
  currentPath := []
  pathPoints := []
  gameState := GameState.START_SCREEN
  isDrawing := false
  levelComplete := false
  currentLevel := 1
  maxUnlockedLevel := 1
  levelStartTime := 0
  levelEndTime := 0
  currentScore := 0
  totalScore := 0
  timerRunning := false
  showHintPopup := false
  hintPopupAlpha := 0
  hintPopupFadingIn := false
  puzzleFailed := false
  shakeTimer := 0
  shakeIntensity := 0

/-- The element `v[i]` of a vector indexed by an `int`: `none` when `i` is not
in `0 .. size-1`. -/
def vectorAt {α : Type} (v : List α) (i : Int) : Option α :=
  if 0 ≤ i then v[i.toNat]? else none

/-- The statement `degrees[k]++` at a natural index `k`. -/
def incrementAt : List Int → Nat → Option (List Int)
  | [], _ => none
  | d :: ds, 0 => some ((d + 1) :: ds)
  | d :: ds, k + 1 => (incrementAt ds k).map (fun r => d :: r)

/-- The statement `degrees[i]++` for an `int` index `i`. -/
def incrementDegree (degrees : List Int) (i : Int) : Option (List Int) :=
  if 0 ≤ i then incrementAt degrees i.toNat else none

/-- The first loop of `CountOddDegreeNodes` (lines 163-166), run on the
edges that remain. -/
def degreeLoop : List Int → List Edge → Option (List Int)
  | degrees, [] => some degrees
  | degrees, edge :: rest =>
    (incrementDegree degrees edge.nodeA).bind (fun degrees1 =>
      (incrementDegree degrees1 edge.nodeB).bind (fun degrees2 =>
        degreeLoop degrees2 rest))

/-- The vector `degrees` of `CountOddDegreeNodes` after its first loop
(lines 161-166): the degree of every node, by position in the node list. -/
def degreeVector (nodes : List Node) (edges : List Edge) : Option (List Int) :=
  degreeLoop (List.replicate nodes.length 0) edges

/-- The second loop of `CountOddDegreeNodes` (lines 168-171). -/
def countOdd (degrees : List Int) : Int :=
  degrees.foldl (fun oddCount degree => if degree.tmod 2 = 1 then oddCount + 1 else oddCount) 0

/-- `CountOddDegreeNodes` (lines 160-174). -/
def OneLinePuzzle.CountOddDegreeNodes (g : OneLinePuzzle) : Option Int :=
  (degreeVector g.nodes g.edges).map countOdd

/-- The test both edge scans use: the edge joins `nodeA` and `nodeB`, in
either order. -/
def Edge.joins (edge : Edge) (nodeA nodeB : Int) : Bool :=
  (edge.nodeA == nodeA && edge.nodeB == nodeB) ||
  (edge.nodeA == nodeB && edge.nodeB == nodeA)

/-- `AreNodesConnected` (lines 639-647). -/
def AreNodesConnected : List Edge → Int → Int → Bool
  | [], _, _ => false
  | edge :: rest, nodeA, nodeB =>
    if edge.joins nodeA nodeB then true else AreNodesConnected rest nodeA nodeB

/-- `MarkEdgeVisited` (lines 649-657): the first edge joining the two nodes
has its visit count incremented; the scan stops there. -/
def MarkEdgeVisited : List Edge → Int → Int → List Edge
  | [], _, _ => []
  | edge :: rest, nodeA, nodeB =>
    if edge.joins nodeA nodeB then
      { edge with visitCount := edge.visitCount + 1 } :: rest
    else edge :: MarkEdgeVisited rest nodeA nodeB

/-- `GetEdgeVisitCount` (lines 659-667). -/
def GetEdgeVisitCount : List Edge → Int → Int → Int
  | [], _, _ => 0
  | edge :: rest, nodeA, nodeB =>
    if edge.joins nodeA nodeB then edge.visitCount else GetEdgeVisitCount rest nodeA nodeB

/-- `GetNodeAtPosition` (lines 675-683): the id of the first node whose centre
is within `nodeRadius` of the pointer, or `-1`. -/
def GetNodeAtPosition (nodes : List Node) (near : Vector2 → Bool) : Int :=
  match nodes with
  | [] => -1
  | node :: rest => if near node.position then node.id else GetNodeAtPosition rest near

/-- `ResetPath` (lines 713-726). -/
def OneLinePuzzle.ResetPath (g : OneLinePuzzle) : OneLinePuzzle :=
  { g with
    currentPath := []
    pathPoints := []
    isDrawing := false
    edges := g.edges.map (fun edge => { edge with visitCount := 0 })
    nodes := g.nodes.map (fun node => { node with isHighlighted := false }) }

/-- `StartPath` (lines 685-696). -/
def OneLinePuzzle.StartPath (g : OneLinePuzzle) (nodeId : Int) (now : ℚ) :
    Option OneLinePuzzle :=
  let g1 := g.ResetPath
  match vectorAt g1.nodes nodeId with
  | none => none
  | some node =>
    let g2 := { g1 with
      currentPath := g1.currentPath ++ [nodeId]
      pathPoints := g1.pathPoints ++ [node.position]
      isDrawing := true }
    if g2.timerRunning = false then
      some { g2 with levelStartTime := now, timerRunning := true }
    else some g2

/-- The body of `UpdatePath` after the pointer has been resolved to
`nearestNode` (lines 699-710). -/
def OneLinePuzzle.UpdatePathTo (g : OneLinePuzzle) (nearestNode : Int) :
    Option OneLinePuzzle :=
  match g.currentPath.getLast? with
  | none => some g
  | some lastNode =>
    if nearestNode ≠ -1 ∧ nearestNode ≠ lastNode then
      if AreNodesConnected g.edges lastNode nearestNode then
        match vectorAt g.nodes nearestNode with
        | none => none
        | some node =>
          some { g with
            currentPath := g.currentPath ++ [nearestNode]
            pathPoints := g.pathPoints ++ [node.position]
            edges := MarkEdgeVisited g.edges lastNode nearestNode }
      else some g
    else some g

/-- `UpdatePath` (lines 698-711). -/
def OneLinePuzzle.UpdatePath (g : OneLinePuzzle) (near : Vector2 → Bool) :
    Option OneLinePuzzle :=
  g.UpdatePathTo (GetNodeAtPosition g.nodes near)

/-- The cast `(int)x` of a `float`: the fraction is discarded, that is, the
value is rounded toward zero. -/
def castInt (x : ℚ) : Int :=
  Int.tdiv x.num x.den

/-- `CalculateScore` (lines 728-733). -/
def CalculateScore (timeTaken : ℚ) : Int :=
  let baseScore : Int := 100
  let timePenalty : Int := castInt (timeTaken * 2)
  max 20 (baseScore - timePenalty)

/-- The flag `allVisitedOnce` at the end of the loop of `CheckSolution`
(lines 736-746). -/
def allVisitedOnce (edges : List Edge) : Bool :=
  edges.foldl (fun flag edge => if edge.visitCount ≠ 1 then false else flag) true

/-- The flag `anyVisitedTwice` at the end of the loop of `CheckSolution`
(lines 737-746). -/
def anyVisitedTwice (edges : List Edge) : Bool :=
  edges.foldl (fun flag edge => if edge.visitCount > 1 then true else flag) false

/-- `TriggerShakeAnimation` (lines 193-197). -/
def OneLinePuzzle.TriggerShakeAnimation (g : OneLinePuzzle) : OneLinePuzzle :=
  { g with puzzleFailed := true, shakeTimer := 1 / 2, shakeIntensity := 10 }

/-- `CheckSolution` (lines 735-762). -/
def OneLinePuzzle.CheckSolution (g : OneLinePuzzle) (now : ℚ) : OneLinePuzzle :=
  if allVisitedOnce g.edges then
    let levelEndTime := now
    let timeTaken := levelEndTime - g.levelStartTime
    let currentScore := CalculateScore timeTaken
    let g1 := { g with
      levelComplete := true
      levelEndTime := levelEndTime
      currentScore := currentScore
      totalScore := g.totalScore + currentScore }
    if g1.currentLevel = g1.maxUnlockedLevel ∧ g1.currentLevel < 14 then
      { g1 with maxUnlockedLevel := g1.currentLevel + 1 }
    else g1
  else if anyVisitedTwice g.edges then
    g.TriggerShakeAnimation
  else g

/-- The nodes of level 1 (`case 1` of the switch in `LoadLevel`). -/
def level1Nodes : List Node :=
  [⟨⟨940, 441⟩, 0, false⟩, ⟨⟨705, 707⟩, 1, false⟩, ⟨⟨1175, 707⟩, 2, false⟩]

/-- The edges of level 1 (`case 1` of the switch in `LoadLevel`). -/
def level1Edges : List Edge :=
  [⟨0, 1, 0⟩, ⟨1, 2, 0⟩, ⟨2, 0, 0⟩]

/-- The nodes of level 2 (`case 2` of the switch in `LoadLevel`). -/
def level2Nodes : List Node :=
  [⟨⟨705, 353⟩, 0, false⟩, ⟨⟨940, 353⟩, 1, false⟩, ⟨⟨1175, 353⟩, 2, false⟩,
   ⟨⟨705, 530⟩, 3, false⟩, ⟨⟨940, 530⟩, 4, false⟩, ⟨⟨1175, 530⟩, 5, false⟩,
   ⟨⟨705, 707⟩, 6, false⟩, ⟨⟨940, 707⟩, 7, false⟩, ⟨⟨1175, 707⟩, 8, false⟩]

/-- The edges of level 2 (`case 2` of the switch in `LoadLevel`). -/
def level2Edges : List Edge :=
  [⟨0, 1, 0⟩, ⟨1, 2, 0⟩, ⟨2, 5, 0⟩, ⟨5, 8, 0⟩, ⟨8, 7, 0⟩,
   ⟨7, 6, 0⟩, ⟨6, 3, 0⟩, ⟨3, 0, 0⟩, ⟨1, 4, 0⟩, ⟨4, 6, 0⟩]

/-- The nodes of level 3 (`case 3` of the switch in `LoadLevel`). -/
def level3Nodes : List Node :=
  [⟨⟨940, 318⟩, 0, false⟩, ⟨⟨1175, 495⟩, 1, false⟩, ⟨⟨1081, 742⟩, 2, false⟩,
   ⟨⟨799, 742⟩, 3, false⟩, ⟨⟨705, 495⟩, 4, false⟩]

/-- The edges of level 3 (`case 3` of the switch in `LoadLevel`). -/
def level3Edges : List Edge :=
  [⟨0, 1, 0⟩, ⟨1, 2, 0⟩, ⟨2, 3, 0⟩, ⟨3, 4, 0⟩, ⟨4, 0, 0⟩,
   ⟨0, 2, 0⟩, ⟨1, 3, 0⟩, ⟨2, 4, 0⟩, ⟨3, 0, 0⟩, ⟨4, 1, 0⟩]

/-- The nodes of level 4 (`case 4` of the switch in `LoadLevel`). -/
def level4Nodes : List Node :=
  [⟨⟨705, 441⟩, 0, false⟩, ⟨⟨940, 441⟩, 1, false⟩, ⟨⟨1175, 441⟩, 2, false⟩,
   ⟨⟨705, 707⟩, 3, false⟩, ⟨⟨940, 707⟩, 4, false⟩, ⟨⟨1175, 707⟩, 5, false⟩]

/-- The edges of level 4 (`case 4` of the switch in `LoadLevel`). -/
def level4Edges : List Edge :=
  [⟨0, 1, 0⟩, ⟨1, 2, 0⟩, ⟨3, 4, 0⟩, ⟨4, 5, 0⟩, ⟨0, 3, 0⟩,
   ⟨1, 4, 0⟩, ⟨2, 5, 0⟩]

/-- The nodes of level 5 (`case 5` of the switch in `LoadLevel`). -/
def level5Nodes : List Node :=
  [⟨⟨588, 353⟩, 0, false⟩, ⟨⟨822, 353⟩, 1, false⟩, ⟨⟨1057, 353⟩, 2, false⟩,
   ⟨⟨1292, 353⟩, 3, false⟩, ⟨⟨705, 618⟩, 4, false⟩, ⟨⟨940, 618⟩, 5, false⟩,
   ⟨⟨1175, 618⟩, 6, false⟩]

/-- The edges of level 5 (`case 5` of the switch in `LoadLevel`). -/
def level5Edges : List Edge :=
  [⟨0, 1, 0⟩, ⟨0, 4, 0⟩, ⟨1, 2, 0⟩, ⟨1, 4, 0⟩, ⟨1, 5, 0⟩,
   ⟨2, 3, 0⟩, ⟨2, 5, 0⟩, ⟨2, 6, 0⟩, ⟨3, 6, 0⟩, ⟨4, 5, 0⟩,
   ⟨5, 6, 0⟩]

/-- The nodes of level 6 (`case 6` of the switch in `LoadLevel`). -/
def level6Nodes : List Node :=
  [⟨⟨940, 353⟩, 0, false⟩, ⟨⟨822, 530⟩, 1, false⟩, ⟨⟨1057, 530⟩, 2, false⟩,
   ⟨⟨940, 795⟩, 3, false⟩]

/-- The edges of level 6 (`case 6` of the switch in `LoadLevel`). -/
def level6Edges : List Edge :=
  [⟨0, 1, 0⟩, ⟨0, 2, 0⟩, ⟨1, 2, 0⟩, ⟨1, 3, 0⟩, ⟨2, 3, 0⟩]

/-- The nodes of level 7 (`case 7` of the switch in `LoadLevel`). -/
def level7Nodes : List Node :=
  [⟨⟨940, 353⟩, 0, false⟩, ⟨⟨705, 530⟩, 1, false⟩, ⟨⟨1175, 530⟩, 2, false⟩,
   ⟨⟨1175, 795⟩, 3, false⟩, ⟨⟨705, 795⟩, 4, false⟩]

/-- The edges of level 7 (`case 7` of the switch in `LoadLevel`). -/
def level7Edges : List Edge :=
  [⟨0, 1, 0⟩, ⟨0, 2, 0⟩, ⟨1, 2, 0⟩, ⟨1, 4, 0⟩, ⟨2, 3, 0⟩,
   ⟨3, 4, 0⟩]

/-- The nodes of level 8 (`case 8` of the switch in `LoadLevel`). -/
def level8Nodes : List Node :=
  [⟨⟨658, 318⟩, 0, false⟩, ⟨⟨1128, 318⟩, 1, false⟩, ⟨⟨1363, 565⟩, 2, false⟩,
   ⟨⟨1128, 795⟩, 3, false⟩, ⟨⟨658, 795⟩, 4, false⟩]

/-- The edges of level 8 (`case 8` of the switch in `LoadLevel`). -/
def level8Edges : List Edge :=
  [⟨0, 1, 0⟩, ⟨0, 4, 0⟩, ⟨1, 2, 0⟩, ⟨1, 3, 0⟩, ⟨1, 4, 0⟩,
   ⟨2, 3, 0⟩, ⟨3, 4, 0⟩]

/-- The nodes of level 9 (`case 9` of the switch in `LoadLevel`). -/
def level9Nodes : List Node :=
  [⟨⟨705, 353⟩, 0, false⟩, ⟨⟨1175, 353⟩, 1, false⟩, ⟨⟨1410, 618⟩, 2, false⟩,
   ⟨⟨1175, 795⟩, 3, false⟩, ⟨⟨705, 795⟩, 4, false⟩, ⟨⟨470, 618⟩, 5, false⟩]

/-- The edges of level 9 (`case 9` of the switch in `LoadLevel`). -/
def level9Edges : List Edge :=
  [⟨0, 1, 0⟩, ⟨0, 5, 0⟩, ⟨1, 2, 0⟩, ⟨1, 4, 0⟩, ⟨2, 3, 0⟩,
   ⟨3, 4, 0⟩, ⟨4, 5, 0⟩]

/-- The nodes of level 10 (`case 10` of the switch in `LoadLevel`). -/
def level10Nodes : List Node :=
  [⟨⟨940, 353⟩, 0, false⟩, ⟨⟨822, 530⟩, 1, false⟩, ⟨⟨1057, 530⟩, 2, false⟩,
   ⟨⟨940, 707⟩, 3, false⟩, ⟨⟨1292, 530⟩, 4, false⟩]

/-- The edges of level 10 (`case 10` of the switch in `LoadLevel`). -/
def level10Edges : List Edge :=
  [⟨0, 1, 0⟩, ⟨0, 2, 0⟩, ⟨1, 3, 0⟩, ⟨2, 3, 0⟩, ⟨2, 4, 0⟩]

/-- The nodes of level 11 (`case 11` of the switch in `LoadLevel`). -/
def level11Nodes : List Node :=
  [⟨⟨705, 353⟩, 0, false⟩, ⟨⟨822, 283⟩, 1, false⟩, ⟨⟨940, 353⟩, 2, false⟩,
   ⟨⟨940, 495⟩, 3, false⟩, ⟨⟨822, 565⟩, 4, false⟩, ⟨⟨705, 495⟩, 5, false⟩,
   ⟨⟨1057, 283⟩, 6, false⟩, ⟨⟨1175, 353⟩, 7, false⟩, ⟨⟨1175, 495⟩, 8, false⟩,
   ⟨⟨1057, 565⟩, 9, false⟩]

/-- The edges of level 11 (`case 11` of the switch in `LoadLevel`). -/
def level11Edges : List Edge :=
  [⟨0, 1, 0⟩, ⟨1, 2, 0⟩, ⟨2, 3, 0⟩, ⟨3, 4, 0⟩, ⟨4, 5, 0⟩,
   ⟨5, 0, 0⟩, ⟨2, 6, 0⟩, ⟨6, 7, 0⟩, ⟨7, 8, 0⟩, ⟨8, 9, 0⟩,
   ⟨9, 3, 0⟩]

/-- The nodes of level 12 (`case 12` of the switch in `LoadLevel`). -/
def level12Nodes : List Node :=
  [⟨⟨822, 441⟩, 0, false⟩, ⟨⟨705, 618⟩, 1, false⟩, ⟨⟨940, 618⟩, 2, false⟩,
   ⟨⟨1175, 618⟩, 3, false⟩]

/-- The edges of level 12 (`case 12` of the switch in `LoadLevel`). -/
def level12Edges : List Edge :=
  [⟨0, 1, 0⟩, ⟨0, 2, 0⟩, ⟨1, 2, 0⟩, ⟨2, 3, 0⟩]

/-- The nodes of level 13 (`case 13` of the switch in `LoadLevel`). -/
def level13Nodes : List Node :=
  [⟨⟨822, 441⟩, 0, false⟩, ⟨⟨1057, 441⟩, 1, false⟩, ⟨⟨940, 530⟩, 2, false⟩,
   ⟨⟨822, 618⟩, 3, false⟩, ⟨⟨1057, 618⟩, 4, false⟩]

/-- The edges of level 13 (`case 13` of the switch in `LoadLevel`). -/
def level13Edges : List Edge :=
  [⟨0, 1, 0⟩, ⟨1, 2, 0⟩, ⟨2, 0, 0⟩, ⟨2, 3, 0⟩, ⟨3, 4, 0⟩,
   ⟨4, 2, 0⟩]

/-- The nodes of level 14 (`case 14` of the switch in `LoadLevel`). -/
def level14Nodes : List Node :=
  [⟨⟨658, 389⟩, 0, false⟩, ⟨⟨940, 389⟩, 1, false⟩, ⟨⟨1222, 389⟩, 2, false⟩,
   ⟨⟨658, 707⟩, 3, false⟩, ⟨⟨1222, 707⟩, 4, false⟩]

/-- The edges of level 14 (`case 14` of the switch in `LoadLevel`). -/
def level14Edges : List Edge :=
  [⟨0, 1, 0⟩, ⟨1, 2, 0⟩, ⟨1, 4, 0⟩, ⟨0, 3, 0⟩, ⟨3, 4, 0⟩]

/-- The switch of `LoadLevel` (lines 462-636): the nodes and edges assigned by
`case level`, or `none` when `level` falls to the `default` label. -/
def levelTable (level : Int) : Option (List Node × List Edge) :=
  if level = 1 then some (level1Nodes, level1Edges)
  else if level = 2 then some (level2Nodes, level2Edges)
  else if level = 3 then some (level3Nodes, level3Edges)
  else if level = 4 then some (level4Nodes, level4Edges)
  else if level = 5 then some (level5Nodes, level5Edges)
  else if level = 6 then some (level6Nodes, level6Edges)
  else if level = 7 then some (level7Nodes, level7Edges)
  else if level = 8 then some (level8Nodes, level8Edges)
  else if level = 9 then some (level9Nodes, level9Edges)
  else if level = 10 then some (level10Nodes, level10Edges)
  else if level = 11 then some (level11Nodes, level11Edges)
  else if level = 12 then some (level12Nodes, level12Edges)
  else if level = 13 then some (level13Nodes, level13Edges)
  else if level = 14 then some (level14Nodes, level14Edges)
  else none

/-- The assignments at the top of `LoadLevel` (lines 446-460). -/
def OneLinePuzzle.clearForLoad (g : OneLinePuzzle) : OneLinePuzzle :=
  { g with
    nodes := []
    edges := []
    currentPath := []
    pathPoints := []
    isDrawing := false
    levelComplete := false
    timerRunning := false
    levelStartTime := 0
    levelEndTime := 0
    currentScore := 0
    showHintPopup := false
    hintPopupAlpha := 0
    puzzleFailed := false
    shakeTimer := 0 }

/-- `LoadLevel` (lines 445-637).  The `default` label sets `currentLevel = 1`
and calls `LoadLevel(1)`, which runs the top of the function again and takes
`case 1`; that single nested call is written out. -/
def OneLinePuzzle.LoadLevel (g : OneLinePuzzle) (level : Int) : OneLinePuzzle :=
  let g1 := g.clearForLoad
  match levelTable level with
  | some (nodes, edges) => { g1 with nodes := nodes, edges := edges }
  | none =>
    let g2 := OneLinePuzzle.clearForLoad { g1 with currentLevel := 1 }
    { g2 with nodes := level1Nodes, edges := level1Edges }


/-- The number of consecutive pairs of `path` that are the two endpoints of
`edge`, in either order. -/
def traversals (edge : Edge) : List Int → Int
  | a :: b :: rest => (if edge.joins a b then 1 else 0) + traversals edge (b :: rest)
  | _ => 0

/-- The edge list after `MarkEdgeVisited` has been called for every consecutive
pair of the walk `a :: path`. -/
def markAlong : List Edge → Int → List Int → List Edge
  | edges, _, [] => edges
  | edges, a, b :: rest => markAlong (MarkEdgeVisited edges a b) b rest

/-- Successive calls of `UpdatePath`, one for each pointer position. -/
def OneLinePuzzle.UpdatePaths : OneLinePuzzle → List (Vector2 → Bool) → Option OneLinePuzzle
  | g, [] => some g
  | g, near :: rest => (g.UpdatePath near).bind (fun g1 => g1.UpdatePaths rest)

/-- One stroke: `StartPath(nodeId)` and then `UpdatePath` for each pointer
position. -/
def OneLinePuzzle.stroke (g : OneLinePuzzle) (nodeId : Int) (now : ℚ)
    (pointer : List (Vector2 → Bool)) : Option OneLinePuzzle :=
  (g.StartPath nodeId now).bind (fun g1 => g1.UpdatePaths pointer)


/-- A pointer resting exactly on the centre `p`, every other centre being
farther away than `nodeRadius`. -/
def pointerOn (p : Vector2) : Vector2 → Bool := fun v => decide (v = p)

/-- Level 1 after the stroke `[0, 1, 2, 0]`. -/
def level1Traced : OneLinePuzzle :=
  ((OneLinePuzzle.new.LoadLevel 1).stroke 0 0
    [pointerOn ⟨705, 707⟩, pointerOn ⟨1175, 707⟩, pointerOn ⟨940, 441⟩]).getD
    OneLinePuzzle.new

/-- Level 1 after the stroke `[0, 1, 2, 0, 1]`. -/
def level1Retraced : OneLinePuzzle :=
  ((OneLinePuzzle.new.LoadLevel 1).stroke 0 0
    [pointerOn ⟨705, 707⟩, pointerOn ⟨1175, 707⟩, pointerOn ⟨940, 441⟩, pointerOn ⟨705, 707⟩]).getD
    OneLinePuzzle.new

/-- Level 1 with node 0 highlighted, as `Update` leaves it while the pointer
hovers that node and no stroke is in progress (lines 857-862). -/
def level1Hovered : OneLinePuzzle :=
  { OneLinePuzzle.new.LoadLevel 1 with
    nodes := [⟨⟨940, 441⟩, 0, true⟩, ⟨⟨705, 707⟩, 1, false⟩, ⟨⟨1175, 707⟩, 2, false⟩] }

/-- One call of an engine operation, with the inputs the call reads. -/
inductive Call where
  | startPath (nodeId : Int) (now : ℚ)
  | updatePath (near : Vector2 → Bool)
  | resetPath
  | checkSolution (now : ℚ)
  | loadLevel (level : Int)

/-- The state after one call; `none` when the call indexes out of bounds. -/
def OneLinePuzzle.call (g : OneLinePuzzle) : Call → Option OneLinePuzzle
  | Call.startPath nodeId now => g.StartPath nodeId now
  | Call.updatePath near => g.UpdatePath near
  | Call.resetPath => some g.ResetPath
  | Call.checkSolution now => some (g.CheckSolution now)
  | Call.loadLevel level => some (g.LoadLevel level)

/-- The state after a sequence of calls, made in order. -/
def OneLinePuzzle.calls : OneLinePuzzle → List Call → Option OneLinePuzzle
  | g, [] => some g
  | g, c :: rest => (g.call c).bind (fun g1 => g1.calls rest)

/-- The node passed to the most recent `StartPath`, `start` being the one
before the call `c`. -/
def Call.lastStartAfter (start : Option Int) : Call → Option Int
  | Call.startPath nodeId _ => some nodeId
  | _ => start

/-- The node passed to the most recent `StartPath` once all of `cs` have been
made, `start` being the one before them. -/
def lastStartFrom : Option Int → List Call → Option Int
  | start, [] => start
  | start, c :: rest => lastStartFrom (c.lastStartAfter start) rest

/-- The node passed to the most recent `StartPath` of a sequence of calls. -/
def lastStart (cs : List Call) : Option Int :=
  lastStartFrom none cs

/-- Level 1 after `StartPath(0)`, two `UpdatePath` calls reaching nodes 1 and 2,
and `CheckSolution`. -/
def level1Released : OneLinePuzzle :=
  ((OneLinePuzzle.new.LoadLevel 1).calls
    [Call.startPath 0 0, Call.updatePath (pointerOn ⟨705, 707⟩),
     Call.updatePath (pointerOn ⟨1175, 707⟩), Call.checkSolution 5]).getD
    OneLinePuzzle.new

/-- The level table as a list: the nodes and edges of levels 1 to 14. -/
def catalog : List (List Node × List Edge) :=
  [(level1Nodes, level1Edges), (level2Nodes, level2Edges), (level3Nodes, level3Edges),
   (level4Nodes, level4Edges), (level5Nodes, level5Edges), (level6Nodes, level6Edges),
   (level7Nodes, level7Edges), (level8Nodes, level8Edges), (level9Nodes, level9Edges),
   (level10Nodes, level10Edges), (level11Nodes, level11Edges), (level12Nodes, level12Edges),
   (level13Nodes, level13Edges), (level14Nodes, level14Edges)]

/-- One if `x` is the node `v`, zero otherwise. -/
def isNode (x v : Int) : Int :=
  if x = v then 1 else 0

/-- The number of edge ends at node `v`: the degree of `v`. -/
def incidences (edges : List Edge) (v : Int) : Int :=
  (edges.map (fun e => isNode e.nodeA v + isNode e.nodeB v)).sum

/-- The number of edge ends at node `v`, every edge counted as often as its
visit count says. -/
def visitedIncidences (edges : List Edge) (v : Int) : Int :=
  (edges.map (fun e => e.visitCount * (isNode e.nodeA v + isNode e.nodeB v))).sum

/-- The number of ends at node `v` of the steps of a path, a step being two
consecutive path nodes. -/
def pathIncidences : List Int → Int → Int
  | a :: b :: rest, v => isNode a v + isNode b v + pathIncidences (b :: rest) v
  | _, _ => 0

/-- Level 12 after the stroke `[3, 2, 0, 1, 2]`. -/
def level12Traced : OneLinePuzzle :=
  ((OneLinePuzzle.new.LoadLevel 12).stroke 3 0
    [pointerOn ⟨940, 618⟩, pointerOn ⟨822, 441⟩, pointerOn ⟨705, 618⟩, pointerOn ⟨940, 618⟩]).getD
    OneLinePuzzle.new

/-- The hint selection of `DrawHintPopup` (lines 366-378), as a function of
the value `CountOddDegreeNodes` returned. -/
def hintText (oddCount : Int) : String :=
  if oddCount = 0 ∨ oddCount = 2 then
    if oddCount = 2 then "Start from a node with odd connections!"
    else "You can start from any node!"
  else "This puzzle has a solution - keep trying!"

/-- Every two consecutive nodes of the walk are accepted by `AreNodesConnected`. -/
def walkConnected (edges : List Edge) : List Int → Bool
  | a :: b :: rest => AreNodesConnected edges a b && walkConnected edges (b :: rest)
  | _ => true

/-- The pointer positions that rest on the centres of the nodes of a walk, in
order; a node that is not in the list contributes no position. -/
def pointerAlong (nodes : List Node) (walk : List Int) : List (Vector2 → Bool) :=
  walk.filterMap (fun p => (vectorAt nodes p).map (fun node => pointerOn node.position))

/-- One single-stroke solution for each level of the table, levels 1 to 14 in
order: a walk that runs along every edge of the level exactly once. -/
def catalogWalks : List (List Int) :=
  [[0, 2, 1, 0],
   [1, 4, 6, 3, 0, 1, 2, 5, 8, 7, 6],
   [0, 3, 1, 4, 2, 0, 4, 3, 2, 1, 0],
   [1, 4, 5, 2, 1, 0, 3, 4],
   [4, 5, 6, 3, 2, 5, 1, 4, 0, 1, 2, 6],
   [1, 3, 2, 1, 0, 2],
   [1, 4, 3, 2, 1, 0, 2],
   [3, 4, 1, 3, 2, 1, 0, 4],
   [1, 4, 5, 0, 1, 2, 3, 4],
   [2, 3, 1, 0, 2, 4],
   [2, 6, 7, 8, 9, 3, 4, 5, 0, 1, 2, 3],
   [2, 1, 0, 2, 3],
   [0, 2, 4, 3, 2, 1, 0],
   [1, 4, 3, 0, 1, 2]]

/-- The solution walk listed for a level. -/
def solutionWalk (level : Int) : List Int :=
  if 1 ≤ level then catalogWalks.getD (level.toNat - 1) [] else []

/-- What one call of `Update` reads from the window: the node hit test at the
mouse position, whether the mouse is inside each button rectangle
(`CheckCollisionPointRec`), the three button queries of the frame
(`IsMouseButtonPressed`, `IsMouseButtonDown`, `IsMouseButtonReleased`), the
frame time, and the values `GetTime()` returns in `StartPath` and in
`CheckSolution`. -/
structure Frame where
  near : Vector2 → Bool
  onStartButton : Bool
  onResetButton : Bool
  onHintButton : Bool
  onNextLevelButton : Bool
  onPrevLevelButton : Bool
  pressed : Bool
  down : Bool
  released : Bool
  deltaTime : ℚ
  timeAtStart : ℚ
  timeAtCheck : ℚ

/-- `UpdateShakeAnimation` (lines 199-214), without the shake offset. -/
def OneLinePuzzle.UpdateShakeAnimation (g : OneLinePuzzle) (deltaTime : ℚ) : OneLinePuzzle :=
  if g.shakeTimer > 0 then
    let g1 := { g with shakeTimer := g.shakeTimer - deltaTime }
    if g1.shakeTimer ≤ 0 then { g1 with puzzleFailed := false } else g1
  else g

/-- The fade of the hint popup in `Update` (lines 790-801). -/
def OneLinePuzzle.updateHintFade (g : OneLinePuzzle) (deltaTime : ℚ) : OneLinePuzzle :=
  if g.showHintPopup = true ∧ g.hintPopupFadingIn = true then
    let g1 := { g with hintPopupAlpha := g.hintPopupAlpha + deltaTime * 4 }
    if g1.hintPopupAlpha ≥ 1 then { g1 with hintPopupAlpha := 1, hintPopupFadingIn := false }
    else g1
  else if g.showHintPopup = false ∧ g.hintPopupAlpha > 0 then
    let g1 := { g with hintPopupAlpha := g.hintPopupAlpha - deltaTime * 4 }
    if g1.hintPopupAlpha < 0 then { g1 with hintPopupAlpha := 0 } else g1
  else g

/-- The statement `nodes[hoveredNode].isHighlighted = true` (line 860). -/
def highlightNode (nodes : List Node) (hoveredNode : Int) : Option (List Node) :=
  (vectorAt nodes hoveredNode).map
    (fun node => nodes.set hoveredNode.toNat { node with isHighlighted := true })

/-- The mouse button going down in `Update` (lines 836-841). -/
def OneLinePuzzle.pressStep (g : OneLinePuzzle) (f : Frame) : Option OneLinePuzzle :=
  if f.pressed = true then
    let nodeId := GetNodeAtPosition g.nodes f.near
    if nodeId ≠ -1 then g.StartPath nodeId f.timeAtStart else some g
  else some g

/-- The mouse button held in `Update` (lines 843-846). -/
def OneLinePuzzle.dragStep (g : OneLinePuzzle) (f : Frame) : Option OneLinePuzzle :=
  if f.down = true ∧ g.isDrawing = true then g.UpdatePath f.near else some g

/-- The mouse button released in `Update` (lines 848-851). -/
def OneLinePuzzle.releaseStep (g : OneLinePuzzle) (f : Frame) : OneLinePuzzle :=
  if f.released = true ∧ g.isDrawing = true then
    { g.CheckSolution f.timeAtCheck with isDrawing := false }
  else g

/-- The hover highlight in `Update` (lines 853-862). -/
def OneLinePuzzle.hoverStep (g : OneLinePuzzle) (f : Frame) : Option OneLinePuzzle :=
  let g1 := { g with nodes := g.nodes.map (fun node => { node with isHighlighted := false }) }
  if g1.levelComplete = false ∧ g1.isDrawing = false then
    let hoveredNode := GetNodeAtPosition g1.nodes f.near
    if hoveredNode ≠ -1 then
      (highlightNode g1.nodes hoveredNode).map (fun nodes => { g1 with nodes := nodes })
    else some g1
  else some g1

/-- The part of `Update` that handles the stroke and the hover highlight
(lines 834-862). -/
def OneLinePuzzle.updateStroke (g : OneLinePuzzle) (f : Frame) : Option OneLinePuzzle :=
  if g.levelComplete = true ∨ g.showHintPopup = true then some g
  else
    (g.pressStep f).bind (fun g1 =>
      (g1.dragStep f).bind (fun g2 =>
        (g2.releaseStep f).hoverStep f))

/-- The click that closes the hint popup in `Update` (lines 804-806). -/
def OneLinePuzzle.closeHintOnClick (g : OneLinePuzzle) (pressed : Bool) : OneLinePuzzle :=
  if g.showHintPopup = true ∧ pressed = true then { g with showHintPopup := false } else g

/-- The part of `Update` on the playing screen that precedes the button
handling (lines 786-806): the shake, the popup fade and the closing click. -/
def OneLinePuzzle.updateOverlays (g : OneLinePuzzle) (f : Frame) : OneLinePuzzle :=
  ((g.UpdateShakeAnimation f.deltaTime).updateHintFade f.deltaTime).closeHintOnClick f.pressed

/-- `Update` (lines 770-863), without the particles and the animated dots.
Next to the new state the function reports the level it passed to `LoadLevel`
in this call, if it called it (lines 780, 821 and 828). -/
def OneLinePuzzle.UpdateLogged (g : OneLinePuzzle) (f : Frame) :
    Option (OneLinePuzzle × Option Int) :=
  if g.gameState = GameState.START_SCREEN then
    if f.pressed = true then
      if f.onStartButton = true then
        some (OneLinePuzzle.LoadLevel { g with gameState := GameState.PLAYING } g.currentLevel,
          some g.currentLevel)
      else some (g, none)
    else some (g, none)
  else
    let g3 := g.updateOverlays f
    if f.pressed = true ∧ g3.showHintPopup = false then
      if f.onResetButton = true then some (g3.ResetPath, none)
      else if f.onHintButton = true then
        some ({ g3 with showHintPopup := true, hintPopupFadingIn := true }, none)
      else if f.onNextLevelButton = true then
        if g3.currentLevel < g3.maxUnlockedLevel then
          some (OneLinePuzzle.LoadLevel { g3 with currentLevel := g3.currentLevel + 1 }
            (g3.currentLevel + 1), some (g3.currentLevel + 1))
        else some (g3, none)
      else if f.onPrevLevelButton = true then
        if g3.currentLevel > 1 then
          some (OneLinePuzzle.LoadLevel { g3 with currentLevel := g3.currentLevel - 1 }
            (g3.currentLevel - 1), some (g3.currentLevel - 1))
        else some (g3, none)
      else (g3.updateStroke f).map (fun g4 => (g4, none))
    else (g3.updateStroke f).map (fun g4 => (g4, none))

/-- The state after `Update`. -/
def OneLinePuzzle.Update (g : OneLinePuzzle) (f : Frame) : Option OneLinePuzzle :=
  (g.UpdateLogged f).map (fun r => r.1)

/-- Successive calls of `Update`, one for each frame. -/
def OneLinePuzzle.Updates : OneLinePuzzle → List Frame → Option OneLinePuzzle
  | g, [] => some g
  | g, f :: rest => (g.Update f).bind (fun g1 => g1.Updates rest)

/-- A frame with the mouse at rest away from every node and button, and no
button event. -/
def idleFrame : Frame where
  near := fun _ => false
  onStartButton := false
  onResetButton := false
  onHintButton := false
  onNextLevelButton := false
  onPrevLevelButton := false
  pressed := false
  down := false
  released := false
  deltaTime := 1 / 60
  timeAtStart := 0
  timeAtCheck := 0

/-- A click on the reset button. -/
def resetClick : Frame :=
  { idleFrame with onResetButton := true, pressed := true, down := true }

/-- A click on the start button of the start screen. -/
def startClick : Frame :=
  { idleFrame with onStartButton := true, pressed := true, down := true }

/-- The mouse button going down on the centre `p`. -/
def pressOn (p : Vector2) : Frame :=
  { idleFrame with near := pointerOn p, pressed := true, down := true }

/-- The mouse dragged, button held, onto the centre `p`. -/
def dragTo (p : Vector2) : Frame :=
  { idleFrame with near := pointerOn p, down := true }

/-- The mouse button released on the centre `p`. -/
def releaseOn (p : Vector2) : Frame :=
  { idleFrame with near := pointerOn p, released := true, timeAtCheck := 5 }

/-- A click on the next-level button. -/
def nextClick : Frame :=
  { idleFrame with onNextLevelButton := true, pressed := true, down := true }

/-- A play of level 1 from the start screen: start, trace `[0, 1, 2, 0]` and
release. -/
def level1Solve : List Frame :=
  [startClick, pressOn ⟨940, 441⟩, dragTo ⟨705, 707⟩, dragTo ⟨1175, 707⟩, dragTo ⟨940, 441⟩,
   releaseOn ⟨940, 441⟩]

/-- Level 1 on the playing screen with the stroke `[0, 1, 2, 0]` released and
found solved, as `level1Solve` leaves it: the level-complete overlay is shown. -/
def level1Complete : OneLinePuzzle :=
  (OneLinePuzzle.new.Updates level1Solve).getD OneLinePuzzle.new

/-- The fields the progression and the stroke read and write: the levels, the
score, the screen, the path, the edges and the completion flag. -/
def OneLinePuzzle.core (g : OneLinePuzzle) :
    Int × Int × Int × GameState × List Int × List Edge × Bool :=
  (g.currentLevel, g.maxUnlockedLevel, g.totalScore, g.gameState, g.currentPath, g.edges,
    g.levelComplete)

/-- A play of level 1 from the start screen that ends with a click on the
next-level button. -/
def level1Play : List Frame :=
  level1Solve ++ [nextClick]

/-- The state `level1Play` leaves: level 2 loaded. -/
def level2Loaded : OneLinePuzzle :=
  (OneLinePuzzle.new.Updates level1Play).getD OneLinePuzzle.new

/-- Level 1 after `StartPath(0)`, three `UpdatePath` calls reaching nodes 1, 2
and 0, and `CheckSolution`: the solved triangle. -/
def level1Checked : OneLinePuzzle :=
  ((OneLinePuzzle.new.LoadLevel 1).calls
    [Call.startPath 0 0, Call.updatePath (pointerOn ⟨705, 707⟩),
     Call.updatePath (pointerOn ⟨1175, 707⟩), Call.updatePath (pointerOn ⟨940, 441⟩),
     Call.checkSolution 5]).getD
    OneLinePuzzle.new

/-! ## Auxiliary lemmas and the verified properties -/

/-- The edge test reads the endpoints only. -/
theorem joins_withVisitCount (e : Edge) (v a b : Int) :
    Edge.joins { e with visitCount := v } a b = e.joins a b := rfl

theorem traversals_withVisitCount (e : Edge) (v : Int) (path : List Int) :
    traversals { e with visitCount := v } path = traversals e path := by
  induction path with
  | nil => rfl
  | cons a rest ih =>
    cases rest with
    | nil => rfl
    | cons b rest2 => simp only [traversals, joins_withVisitCount, ih]

/-- `AreNodesConnected` holds exactly when some edge joins the two nodes. -/
theorem AreNodesConnected_iff (edges : List Edge) (a b : Int) :
    AreNodesConnected edges a b = true ↔ ∃ e ∈ edges, e.joins a b = true := by
  induction edges with
  | nil => simp [AreNodesConnected]
  | cons e rest ih =>
    by_cases h : e.joins a b = true
    · simp [AreNodesConnected, h]
    · simp [AreNodesConnected, h, ih]

/-- `MarkEdgeVisited` does not change which nodes are connected. -/
theorem AreNodesConnected_mark (edges : List Edge) (x y a b : Int) :
    AreNodesConnected (MarkEdgeVisited edges x y) a b = AreNodesConnected edges a b := by
  induction edges with
  | nil => rfl
  | cons e rest ih =>
    by_cases h : e.joins x y = true
    · simp [MarkEdgeVisited, h, AreNodesConnected, joins_withVisitCount]
    · simp [MarkEdgeVisited, h, AreNodesConnected, ih]

/-- With no unordered pair listed twice, `MarkEdgeVisited` increments exactly
the edges joining the two nodes. -/
theorem MarkEdgeVisited_of_pairwise (edges : List Edge) (a b : Int)
    (hdup : edges.Pairwise (fun e f => ¬ e.joins f.nodeA f.nodeB = true)) :
    MarkEdgeVisited edges a b =
      edges.map (fun e => { e with visitCount := e.visitCount + (if e.joins a b then 1 else 0) }) := by
  induction edges with
  | nil => rfl
  | cons e rest ih =>
    rw [List.pairwise_cons] at hdup
    by_cases h : e.joins a b = true
    · have hrest : ∀ f ∈ rest, f.joins a b = false := by
        intro f hf
        have h1 := hdup.1 f hf
        simp only [Edge.joins, Bool.or_eq_true, Bool.and_eq_true, beq_iff_eq] at h h1 ⊢
        by_contra hc
        simp only [Bool.not_eq_false, Bool.or_eq_true, Bool.and_eq_true, beq_iff_eq] at hc
        apply h1
        rcases h with ⟨h2, h3⟩ | ⟨h2, h3⟩ <;> rcases hc with ⟨h4, h5⟩ | ⟨h4, h5⟩ <;> omega
      simp only [MarkEdgeVisited, h, if_true, List.map_cons]
      congr 1
      symm
      calc rest.map _ = rest.map id := by
            apply List.map_congr_left
            intro f hf
            simp [hrest f hf]
        _ = rest := List.map_id _
    · simp only [MarkEdgeVisited, h, List.map_cons, ih hdup.2]
      simp
theorem pairwise_mark (edges : List Edge) (a b : Int)
    (hdup : edges.Pairwise (fun e f => ¬ e.joins f.nodeA f.nodeB = true)) :
    (MarkEdgeVisited edges a b).Pairwise (fun e f => ¬ e.joins f.nodeA f.nodeB = true) := by
  rw [MarkEdgeVisited_of_pairwise edges a b hdup]
  exact List.Pairwise.map _ (fun e f h => h) hdup

theorem markAlong_of_pairwise (ps : List Int) : ∀ (edges : List Edge) (a : Int),
    edges.Pairwise (fun e f => ¬ e.joins f.nodeA f.nodeB = true) →
    markAlong edges a ps =
      edges.map (fun e => { e with visitCount := e.visitCount + traversals e (a :: ps) }) := by
  induction ps with
  | nil =>
    intro edges a _
    simp [markAlong, traversals]
  | cons b rest ih =>
    intro edges a hdup
    rw [markAlong, ih _ b (pairwise_mark edges a b hdup), MarkEdgeVisited_of_pairwise edges a b hdup,
      List.map_map]
    apply List.map_congr_left
    intro e _
    simp only [Function.comp, traversals, traversals_withVisitCount]
    congr 1
    ring

theorem vectorAt_some_bounds {α : Type} (v : List α) (i : Int) (x : α)
    (h : vectorAt v i = some x) : 0 ≤ i ∧ i < v.length := by
  unfold vectorAt at h
  split at h
  · rename_i h0
    have := (List.getElem?_eq_some_iff.mp h).1
    omega
  · simp at h

theorem vectorAt_of_bounds {α : Type} (v : List α) (i : Int) (h0 : 0 ≤ i)
    (h1 : i < v.length) : ∃ x, vectorAt v i = some x := by
  unfold vectorAt
  rw [if_pos h0]
  have : i.toNat < v.length := by omega
  exact ⟨v[i.toNat], List.getElem?_eq_getElem this⟩

theorem UpdatePathTo_extend (g : OneLinePuzzle) (a b : Int) (node : Node)
    (hlast : g.currentPath.getLast? = some a) (hne : a ≠ b)
    (hb : vectorAt g.nodes b = some node)
    (hadj : AreNodesConnected g.edges a b = true) :
    g.UpdatePathTo b = some { g with
      currentPath := g.currentPath ++ [b]
      pathPoints := g.pathPoints ++ [node.position]
      edges := MarkEdgeVisited g.edges a b } := by
  have hb0 := (vectorAt_some_bounds _ _ _ hb).1
  have h1 : b ≠ -1 := by omega
  have h2 : b ≠ a := fun h => hne h.symm
  simp [OneLinePuzzle.UpdatePathTo, hlast, h1, h2, hadj, hb]

/-- Following a walk whose steps are distinct, connected and in range, every
`UpdatePath` extends the path by the node the pointer resolves to. -/
theorem UpdatePaths_along (pointer : List (Vector2 → Bool)) :
    ∀ (g : OneLinePuzzle) (a : Int) (ps : List Int),
    g.currentPath.getLast? = some a →
    pointer.map (GetNodeAtPosition g.nodes) = ps →
    (∀ p ∈ ps, 0 ≤ p ∧ p < g.nodes.length) →
    List.Chain (fun x y => x ≠ y ∧ AreNodesConnected g.edges x y = true) a ps →
    ∃ pts, g.UpdatePaths pointer = some { g with
      currentPath := g.currentPath ++ ps
      pathPoints := g.pathPoints ++ pts
      edges := markAlong g.edges a ps } := by
  induction pointer with
  | nil =>
    intro g a ps _ hres _ _
    subst hres
    exact ⟨[], by simp [OneLinePuzzle.UpdatePaths, markAlong]⟩
  | cons near rest ih =>
    intro g a ps hlast hres hvalid hchain
    rw [List.map_cons] at hres
    subst hres
    rw [List.chain_cons] at hchain
    obtain ⟨⟨hne, hadj⟩, hchain⟩ := hchain
    have hv := hvalid (GetNodeAtPosition g.nodes near) (List.mem_cons_self _ _)
    obtain ⟨node, hnode⟩ := vectorAt_of_bounds g.nodes _ hv.1 hv.2
    have hstep := UpdatePathTo_extend g a _ node hlast hne hnode hadj
    obtain ⟨pts, hpts⟩ := ih
      { g with
        currentPath := g.currentPath ++ [GetNodeAtPosition g.nodes near]
        pathPoints := g.pathPoints ++ [node.position]
        edges := MarkEdgeVisited g.edges a (GetNodeAtPosition g.nodes near) }
      (GetNodeAtPosition g.nodes near)
      (rest.map (GetNodeAtPosition g.nodes)) (by simp) rfl
      (fun p hp => hvalid p (List.mem_cons_of_mem _ hp))
      (List.Chain.imp (fun x y h => ⟨h.1, by rw [AreNodesConnected_mark]; exact h.2⟩) hchain)
    refine ⟨node.position :: pts, ?_⟩
    simp only [OneLinePuzzle.UpdatePaths, OneLinePuzzle.UpdatePath, hstep, Option.some_bind]
    rw [hpts]
    simp [markAlong]

theorem allVisitedOnce_foldl (edges : List Edge) (flag : Bool) :
    edges.foldl (fun flag edge => if edge.visitCount ≠ 1 then false else flag) flag =
      (flag && edges.all (fun e => decide (e.visitCount = 1))) := by
  induction edges generalizing flag with
  | nil => simp
  | cons e rest ih =>
    rw [List.foldl_cons, ih]
    by_cases h : e.visitCount = 1 <;> simp [h]

/-- The loop flag `allVisitedOnce` says that every edge has visit count 1. -/
theorem allVisitedOnce_iff (edges : List Edge) :
    allVisitedOnce edges = true ↔ ∀ e ∈ edges, e.visitCount = 1 := by
  unfold allVisitedOnce
  rw [allVisitedOnce_foldl]
  simp

theorem anyVisitedTwice_foldl (edges : List Edge) (flag : Bool) :
    edges.foldl (fun flag edge => if edge.visitCount > 1 then true else flag) flag =
      (flag || edges.any (fun e => decide (e.visitCount > 1))) := by
  induction edges generalizing flag with
  | nil => simp
  | cons e rest ih =>
    rw [List.foldl_cons, ih]
    by_cases h : e.visitCount > 1 <;> simp [h]

/-- The loop flag `anyVisitedTwice` says that some edge has visit count above 1. -/
theorem anyVisitedTwice_iff (edges : List Edge) :
    anyVisitedTwice edges = true ↔ ∃ e ∈ edges, e.visitCount > 1 := by
  unfold anyVisitedTwice
  rw [anyVisitedTwice_foldl]
  simp

theorem GetNodeAtPosition_unhighlight (nodes : List Node) (near : Vector2 → Bool) :
    GetNodeAtPosition (nodes.map (fun node => { node with isHighlighted := false })) near =
      GetNodeAtPosition nodes near := by
  induction nodes with
  | nil => rfl
  | cons n rest ih => simp only [List.map_cons, GetNodeAtPosition, ih]

theorem AreNodesConnected_zeroed (edges : List Edge) (a b : Int) :
    AreNodesConnected (edges.map (fun edge => { edge with visitCount := 0 })) a b =
      AreNodesConnected edges a b := by
  induction edges with
  | nil => rfl
  | cons e rest ih => simp only [List.map_cons, AreNodesConnected, joins_withVisitCount, ih]

theorem StartPath_eq (g : OneLinePuzzle) (nodeId : Int) (now : ℚ)
    (h0 : 0 ≤ nodeId) (h1 : nodeId < g.nodes.length) :
    ∃ g1, g.StartPath nodeId now = some g1 ∧ g1.currentPath = [nodeId] ∧
      g1.edges = g.edges.map (fun edge => { edge with visitCount := 0 }) ∧
      g1.nodes = g.nodes.map (fun node => { node with isHighlighted := false }) ∧
      g1.isDrawing = true ∧ g1.levelComplete = g.levelComplete ∧
      g1.totalScore = g.totalScore ∧ g1.currentLevel = g.currentLevel ∧
      g1.maxUnlockedLevel = g.maxUnlockedLevel := by
  obtain ⟨node, hnode⟩ := vectorAt_of_bounds
    (g.nodes.map (fun node => { node with isHighlighted := false })) nodeId h0 (by simpa using h1)
  unfold OneLinePuzzle.StartPath
  simp only [OneLinePuzzle.ResetPath, hnode]
  split <;> simp

theorem CheckSolution_of_allVisitedOnce (g : OneLinePuzzle) (now : ℚ)
    (h : allVisitedOnce g.edges = true) :
    (g.CheckSolution now).levelComplete = true ∧
    (g.CheckSolution now).totalScore = g.totalScore + CalculateScore (now - g.levelStartTime) ∧
    (g.CheckSolution now).currentScore = CalculateScore (now - g.levelStartTime) ∧
    (g.CheckSolution now).levelEndTime = now := by
  unfold OneLinePuzzle.CheckSolution
  simp only [h, if_true]
  split <;> simp

/-- Claim C1.  In a graph without self-loops and without a repeated unordered
pair, take a walk `p0, p1, .., pk` over nodes of the graph whose consecutive
nodes are adjacent and which runs along every edge exactly once.  From any
prior state, `StartPath(p0)` followed by `UpdatePath` with the pointer resolving
to `p1, .., pk` in turn succeeds, records exactly that walk, leaves every edge
with `visitCount == 1`, and `CheckSolution` then takes the solved branch and
sets `levelComplete`. -/
theorem euler_stroke_solved (g : OneLinePuzzle) (p0 : Int) (ps : List Int)
    (pointer : List (Vector2 → Bool)) (t0 t1 : ℚ)
    (hloop : ∀ e ∈ g.edges, e.nodeA ≠ e.nodeB)
    (hdup : g.edges.Pairwise (fun e f => ¬ e.joins f.nodeA f.nodeB = true))
    (hnode : ∀ p ∈ p0 :: ps, 0 ≤ p ∧ p < g.nodes.length)
    (hres : pointer.map (GetNodeAtPosition g.nodes) = ps)
    (hadj : List.Chain (fun x y => AreNodesConnected g.edges x y = true) p0 ps)
    (honce : ∀ e ∈ g.edges, traversals e (p0 :: ps) = 1) :
    ∃ g1, g.stroke p0 t0 pointer = some g1 ∧
      g1.currentPath = p0 :: ps ∧
      g1.edges = g.edges.map (fun e => { e with visitCount := 1 }) ∧
      (∀ e ∈ g1.edges, e.visitCount = 1) ∧
      allVisitedOnce g1.edges = true ∧
      (g1.CheckSolution t1).levelComplete = true := by
  obtain ⟨g0, hstart, hpath, hedges, hnodes, -⟩ :=
    StartPath_eq g p0 t0 (hnode p0 (List.mem_cons_self _ _)).1 (hnode p0 (List.mem_cons_self _ _)).2
  have hres0 : pointer.map (GetNodeAtPosition g0.nodes) = ps := by
    rw [hnodes, ← hres]
    exact List.map_congr_left (fun near _ => GetNodeAtPosition_unhighlight g.nodes near)
  have hchain : List.Chain (fun x y => x ≠ y ∧ AreNodesConnected g0.edges x y = true) p0 ps := by
    refine List.Chain.imp ?_ hadj
    intro x y hxy
    constructor
    · intro hxy2
      subst hxy2
      obtain ⟨e, he, hj⟩ := (AreNodesConnected_iff g.edges x x).mp hxy
      apply hloop e he
      simp only [Edge.joins, Bool.or_eq_true, Bool.and_eq_true, beq_iff_eq] at hj
      omega
    · rw [hedges, AreNodesConnected_zeroed]
      exact hxy
  obtain ⟨pts, hrun⟩ := UpdatePaths_along pointer g0 p0 ps (by simp [hpath]) hres0
    (fun p hp => by
      have := hnode p (List.mem_cons_of_mem _ hp)
      rw [hnodes]
      simpa using this) hchain
  have hdup0 : g0.edges.Pairwise (fun e f => ¬ e.joins f.nodeA f.nodeB = true) := by
    rw [hedges]
    exact List.Pairwise.map _ (fun e f h => h) hdup
  have hfinal : markAlong g0.edges p0 ps = g.edges.map (fun e => { e with visitCount := 1 }) := by
    rw [markAlong_of_pairwise ps g0.edges p0 hdup0, hedges, List.map_map]
    apply List.map_congr_left
    intro e he
    simp only [Function.comp, traversals_withVisitCount, honce e he]
    rfl
  have hall : ∀ e ∈ g.edges.map (fun e => { e with visitCount := 1 }), e.visitCount = 1 := by
    intro e he
    obtain ⟨f, _, rfl⟩ := List.mem_map.mp he
    rfl
  refine ⟨_, by simp only [OneLinePuzzle.stroke, hstart, Option.some_bind]; exact hrun, ?_, ?_, ?_, ?_, ?_⟩
  · simp [hpath]
  · exact hfinal
  · simp only [hfinal]
    exact hall
  · simp only [hfinal]
    exact (allVisitedOnce_iff _).mpr hall
  · apply (CheckSolution_of_allVisitedOnce _ t1 _).1
    simp only [hfinal]
    exact (allVisitedOnce_iff _).mpr hall

/-- The level-1 triangle with the stroke `[0, 1, 2, 0]`: every edge is visited
once and `CheckSolution` sets `levelComplete`. -/
theorem euler_stroke_solved_witness :
    ∃ g1, (OneLinePuzzle.new.LoadLevel 1).stroke 0 0
        [pointerOn ⟨705, 707⟩, pointerOn ⟨1175, 707⟩, pointerOn ⟨940, 441⟩] = some g1 ∧
      g1.currentPath = [0, 1, 2, 0] ∧
      g1.edges = (OneLinePuzzle.new.LoadLevel 1).edges.map (fun e => { e with visitCount := 1 }) ∧
      (∀ e ∈ g1.edges, e.visitCount = 1) ∧
      allVisitedOnce g1.edges = true ∧
      (g1.CheckSolution 5).levelComplete = true :=
  euler_stroke_solved (OneLinePuzzle.new.LoadLevel 1) 0 [1, 2, 0]
    [pointerOn ⟨705, 707⟩, pointerOn ⟨1175, 707⟩, pointerOn ⟨940, 441⟩] 0 5
    (by decide) (by decide) (by decide) (by decide)
    (List.Chain.cons (by decide) (List.Chain.cons (by decide) (List.Chain.cons (by decide) List.Chain.nil)))
    (by decide)


/-- On a non-negative value the cast `(int)x` is the floor. -/
theorem castInt_of_nonneg (x : ℚ) (h : 0 ≤ x) : castInt x = ⌊x⌋ := by
  unfold castInt
  rw [Rat.floor_def, Int.tdiv_eq_ediv (Rat.num_nonneg.mpr h) (Int.ofNat_nonneg _)]

/-- Claim C2.  In every state in which some edge has `visitCount > 1`,
`CheckSolution` takes the failure branch whatever the other visit counts are:
the result is exactly `TriggerShakeAnimation` applied to the state, so
`puzzleFailed` is set and the shake is started, while `levelComplete`,
`totalScore`, `maxUnlockedLevel`, the path and every edge are as before. -/
theorem retraced_edge_fails (g : OneLinePuzzle) (now : ℚ)
    (h : ∃ e ∈ g.edges, e.visitCount > 1) :
    g.CheckSolution now = g.TriggerShakeAnimation ∧
    (g.CheckSolution now).puzzleFailed = true ∧
    (g.CheckSolution now).shakeTimer = 1 / 2 ∧
    (g.CheckSolution now).shakeIntensity = 10 ∧
    (g.CheckSolution now).levelComplete = g.levelComplete ∧
    (g.CheckSolution now).totalScore = g.totalScore ∧
    (g.CheckSolution now).maxUnlockedLevel = g.maxUnlockedLevel ∧
    (g.CheckSolution now).currentPath = g.currentPath ∧
    (g.CheckSolution now).pathPoints = g.pathPoints ∧
    (g.CheckSolution now).edges = g.edges := by
  have h2 : anyVisitedTwice g.edges = true := (anyVisitedTwice_iff _).mpr h
  have h1 : ¬ allVisitedOnce g.edges = true := by
    rw [allVisitedOnce_iff]
    intro hall
    obtain ⟨e, he, hgt⟩ := h
    have := hall e he
    omega
  have hcs : g.CheckSolution now = g.TriggerShakeAnimation := by
    unfold OneLinePuzzle.CheckSolution
    rw [if_neg h1, if_pos h2]
  rw [hcs]
  simp [OneLinePuzzle.TriggerShakeAnimation]

/-- The level-1 triangle with the stroke `[0, 1, 2, 0, 1]`: edge `(0, 1)` has
visit count 2 and `CheckSolution` raises the failure signal. -/
theorem retraced_edge_fails_witness :
    (OneLinePuzzle.new.LoadLevel 1).stroke 0 0
      [pointerOn ⟨705, 707⟩, pointerOn ⟨1175, 707⟩, pointerOn ⟨940, 441⟩, pointerOn ⟨705, 707⟩]
      = some level1Retraced ∧
    level1Retraced.currentPath = [0, 1, 2, 0, 1] ∧
    GetEdgeVisitCount level1Retraced.edges 0 1 = 2 ∧
    (level1Retraced.CheckSolution 5).puzzleFailed = true ∧
    (level1Retraced.CheckSolution 5).levelComplete = false :=
  ⟨rfl, by decide, by decide,
    (retraced_edge_fails level1Retraced 5 (by decide)).2.1,
    ((retraced_edge_fails level1Retraced 5 (by decide)).2.2.2.2.1).trans (by decide)⟩

/-- Claim C3.  The solved branch of `CheckSolution` is taken exactly when every
edge has `visitCount == 1`.  In that case `levelComplete` becomes true and the
score computed from the elapsed time is stored and added to `totalScore`; in
every other case `levelComplete` and `totalScore` keep their values. -/
theorem solved_iff_all_visited_once (g : OneLinePuzzle) (now : ℚ) :
    (allVisitedOnce g.edges = true ↔ ∀ e ∈ g.edges, e.visitCount = 1) ∧
    ((∀ e ∈ g.edges, e.visitCount = 1) →
      (g.CheckSolution now).levelComplete = true ∧
      (g.CheckSolution now).currentScore = CalculateScore (now - g.levelStartTime) ∧
      (g.CheckSolution now).totalScore = g.totalScore + CalculateScore (now - g.levelStartTime)) ∧
    (¬ (∀ e ∈ g.edges, e.visitCount = 1) →
      (g.CheckSolution now).levelComplete = g.levelComplete ∧
      (g.CheckSolution now).totalScore = g.totalScore) := by
  refine ⟨allVisitedOnce_iff _, ?_, ?_⟩
  · intro hall
    have h := CheckSolution_of_allVisitedOnce g now ((allVisitedOnce_iff _).mpr hall)
    exact ⟨h.1, h.2.2.1, h.2.1⟩
  · intro hnot
    have h1 : ¬ allVisitedOnce g.edges = true := fun h => hnot ((allVisitedOnce_iff _).mp h)
    unfold OneLinePuzzle.CheckSolution
    rw [if_neg h1]
    split <;> simp [OneLinePuzzle.TriggerShakeAnimation]

/-- Claim C4, as amended.  From every prior state `ResetPath` leaves every
edge with `visitCount == 0`, `currentPath` and `pathPoints` empty and
`isDrawing` false.  The id and position of every node, the endpoints of every
edge, `currentLevel`, `maxUnlockedLevel` and `totalScore` are unchanged; the
`isHighlighted` flag of every node is cleared. -/
theorem resetPath_clears (g : OneLinePuzzle) :
    (∀ e ∈ g.ResetPath.edges, e.visitCount = 0) ∧
    g.ResetPath.currentPath = [] ∧
    g.ResetPath.pathPoints = [] ∧
    g.ResetPath.isDrawing = false ∧
    g.ResetPath.nodes.map (fun n => (n.id, n.position)) = g.nodes.map (fun n => (n.id, n.position)) ∧
    (∀ n ∈ g.ResetPath.nodes, n.isHighlighted = false) ∧
    g.ResetPath.edges.map (fun e => (e.nodeA, e.nodeB)) = g.edges.map (fun e => (e.nodeA, e.nodeB)) ∧
    g.ResetPath.currentLevel = g.currentLevel ∧
    g.ResetPath.maxUnlockedLevel = g.maxUnlockedLevel ∧
    g.ResetPath.totalScore = g.totalScore := by
  refine ⟨?_, rfl, rfl, rfl, ?_, ?_, ?_, rfl, rfl, rfl⟩
  · intro e he
    obtain ⟨f, _, rfl⟩ := List.mem_map.mp he
    rfl
  · simp [OneLinePuzzle.ResetPath, Function.comp_def]
  · intro n hn
    obtain ⟨m, _, rfl⟩ := List.mem_map.mp hn
    rfl
  · simp [OneLinePuzzle.ResetPath, Function.comp_def]

/-- Claim C4 as stated fails: `ResetPath` does not leave the node list as it
was when a node is highlighted, since it clears the flag (lines 723-725). -/
theorem resetPath_changes_nodes : level1Hovered.ResetPath.nodes ≠ level1Hovered.nodes := by
  decide

/-- Claim C5.  When `CheckSolution` takes the solved branch, `maxUnlockedLevel`
grows by exactly 1 if `currentLevel == maxUnlockedLevel` and
`currentLevel < 14`, and is unchanged otherwise; so it never grows by more
than 1, and it does not grow when the solved level is below the maximum. -/
theorem solve_unlocks_at_most_one (g : OneLinePuzzle) (now : ℚ)
    (h : allVisitedOnce g.edges = true) :
    (g.CheckSolution now).maxUnlockedLevel =
      (if g.currentLevel = g.maxUnlockedLevel ∧ g.currentLevel < 14
        then g.maxUnlockedLevel + 1 else g.maxUnlockedLevel) ∧
    (g.CheckSolution now).maxUnlockedLevel ≤ g.maxUnlockedLevel + 1 ∧
    (g.currentLevel < g.maxUnlockedLevel →
      (g.CheckSolution now).maxUnlockedLevel = g.maxUnlockedLevel) := by
  have key : (g.CheckSolution now).maxUnlockedLevel =
      (if g.currentLevel = g.maxUnlockedLevel ∧ g.currentLevel < 14
        then g.maxUnlockedLevel + 1 else g.maxUnlockedLevel) := by
    unfold OneLinePuzzle.CheckSolution
    simp only [h, if_true]
    split
    · rename_i hc
      simp [hc.1]
    · rfl
  refine ⟨key, ?_, ?_⟩
  · rw [key]
    split <;> omega
  · intro hlt
    rw [key, if_neg]
    omega

/-- Solving level 1 with `maxUnlockedLevel == 1` unlocks level 2. -/
theorem solve_unlocks_at_most_one_witness :
    allVisitedOnce level1Traced.edges = true ∧
    (level1Traced.CheckSolution 5).maxUnlockedLevel = 2 :=
  ⟨by decide, (solve_unlocks_at_most_one level1Traced 5 (by decide)).1.trans (by decide)⟩

/-- Claim C6.  For every elapsed time `t`, a non-negative number of seconds
taken as an exact rational, `CalculateScore(t)` equals
`max(20, 100 - floor(2 * t))`: on such a value the cast `(int)(t * 2)` of the
code is the floor. -/
theorem calculateScore_of_nonneg (t : ℚ) (h : 0 ≤ t) :
    CalculateScore t = max 20 (100 - ⌊2 * t⌋) := by
  unfold CalculateScore
  rw [castInt_of_nonneg (t * 2) (by positivity), mul_comm]

/-- The score formula at `t = 39.4`. -/
theorem calculateScore_of_nonneg_witness :
    (0 : ℚ) ≤ 197 / 5 ∧ CalculateScore (197 / 5) = max 20 (100 - ⌊2 * (197 / 5 : ℚ)⌋) :=
  ⟨by norm_num, calculateScore_of_nonneg (197 / 5) (by norm_num)⟩

/-- A remark on arguments that are not elapsed times.  The only call of
`CalculateScore` (lines 750-752) passes the difference of two readings of the
clock, which is never negative.  On a negative argument the cast rounds toward
zero and is not the floor: `CalculateScore(-0.25)` is 100, whereas
`max(20, 100 - floor(-0.5))` is 101. -/
theorem calculateScore_negative_time :
    CalculateScore (-1 / 4) = 100 ∧ max 20 (100 - ⌊2 * (-1 / 4 : ℚ)⌋) = 101 ∧
    CalculateScore (-1 / 4) ≠ max 20 (100 - ⌊2 * (-1 / 4 : ℚ)⌋) := by
  have h1 : CalculateScore (-1 / 4) = 100 := by
    norm_num [CalculateScore, castInt]
    decide
  have h2 : ⌊2 * (-1 / 4 : ℚ)⌋ = -1 := by
    rw [Int.floor_eq_iff]
    norm_num
  refine ⟨h1, by rw [h2]; decide, ?_⟩
  rw [h1, h2]
  decide

theorem calculateScore_39_4 : CalculateScore (197 / 5) = 22 := by
  norm_num [CalculateScore, castInt]
  decide

/-- Claim C7, as amended.  `CalculateScore(0) == 100`, `CalculateScore(40) == 20`,
`CalculateScore(100) == 20` and `CalculateScore(39.4) == 22`. -/
theorem calculateScore_values :
    CalculateScore 0 = 100 ∧ CalculateScore 40 = 20 ∧ CalculateScore 100 = 20 ∧
    CalculateScore (197 / 5) = 22 := by
  refine ⟨?_, ?_, ?_, calculateScore_39_4⟩ <;> norm_num [CalculateScore, castInt]

/-- Claim C7 as stated fails at its last value: `(int)(39.4 * 2)` is 78, so
`CalculateScore(39.4)` is 22 and not 21. -/
theorem calculateScore_39_4_not_21 :
    ¬ (CalculateScore 0 = 100 ∧ CalculateScore 40 = 20 ∧ CalculateScore 100 = 20 ∧
      CalculateScore (197 / 5) = 21) := by
  intro h
  have h1 := calculateScore_39_4
  rw [h.2.2.2] at h1
  exact absurd h1 (by decide)

theorem StartPath_currentPath (g g1 : OneLinePuzzle) (nodeId : Int) (now : ℚ)
    (h : g.StartPath nodeId now = some g1) :
    g1.currentPath = [nodeId] ∧
    g1.edges = g.edges.map (fun edge => { edge with visitCount := 0 }) ∧
    g1.nodes = g.nodes.map (fun node => { node with isHighlighted := false }) ∧
    0 ≤ nodeId ∧ nodeId < g.nodes.length := by
  unfold OneLinePuzzle.StartPath at h
  simp only [OneLinePuzzle.ResetPath] at h
  split at h
  · simp at h
  · rename_i node hnode
    have hb := vectorAt_some_bounds _ _ _ hnode
    rw [List.length_map] at hb
    split at h <;>
    · simp only [Option.some.injEq] at h
      subst h
      exact ⟨by simp, rfl, rfl, hb⟩

/-- What a call of `UpdatePathTo` that returns can have done: nothing, or one
extension of the path along an edge. -/
theorem UpdatePathTo_cases (g g1 : OneLinePuzzle) (nearestNode : Int)
    (h : g.UpdatePathTo nearestNode = some g1) :
    g1 = g ∨
    ∃ lastNode node, g.currentPath.getLast? = some lastNode ∧ nearestNode ≠ lastNode ∧
      AreNodesConnected g.edges lastNode nearestNode = true ∧
      vectorAt g.nodes nearestNode = some node ∧
      g1 = { g with
        currentPath := g.currentPath ++ [nearestNode]
        pathPoints := g.pathPoints ++ [node.position]
        edges := MarkEdgeVisited g.edges lastNode nearestNode } := by
  unfold OneLinePuzzle.UpdatePathTo at h
  split at h
  · left
    simpa using h.symm
  · rename_i lastNode hlast
    split at h
    · rename_i hne
      split at h
      · rename_i hadj
        split at h
        · simp at h
        · rename_i node hnode
          right
          exact ⟨lastNode, node, hlast, hne.2, hadj, hnode, by simpa using h.symm⟩
      · left
        simpa using h.symm
    · left
      simpa using h.symm

theorem CheckSolution_path_edges (g : OneLinePuzzle) (now : ℚ) :
    (g.CheckSolution now).currentPath = g.currentPath ∧
    (g.CheckSolution now).edges = g.edges ∧
    (g.CheckSolution now).nodes = g.nodes := by
  unfold OneLinePuzzle.CheckSolution
  by_cases h1 : allVisitedOnce g.edges = true
  · simp only [h1, if_true]
    split <;> simp
  · rw [if_neg h1]
    split <;> simp [OneLinePuzzle.TriggerShakeAnimation]

theorem LoadLevel_currentPath (g : OneLinePuzzle) (level : Int) :
    (g.LoadLevel level).currentPath = [] := by
  unfold OneLinePuzzle.LoadLevel
  split <;> rfl

/-- The invariant of claim C8 in the form the induction uses: consecutive
path nodes are distinct and connected, and a non-empty path begins with the
node of the most recent `StartPath`. -/
theorem call_preserves (g g1 : OneLinePuzzle) (start : Option Int) (c : Call)
    (hchain : List.Chain' (fun x y => x ≠ y ∧ AreNodesConnected g.edges x y = true) g.currentPath)
    (hhead : ∀ n, g.currentPath.head? = some n → start = some n)
    (h : g.call c = some g1) :
    List.Chain' (fun x y => x ≠ y ∧ AreNodesConnected g1.edges x y = true) g1.currentPath ∧
    (∀ n, g1.currentPath.head? = some n → c.lastStartAfter start = some n) := by
  cases c with
  | startPath nodeId now =>
    have hs := StartPath_currentPath g g1 nodeId now h
    rw [hs.1]
    exact ⟨List.chain'_singleton _, fun n hn => by simpa [Call.lastStartAfter] using hn⟩
  | updatePath near =>
    rcases UpdatePathTo_cases g g1 _ h with rfl | ⟨lastNode, node, hlast, hne, hadj, -, rfl⟩
    · exact ⟨hchain, hhead⟩
    · constructor
      · apply List.Chain'.append
        · exact List.Chain'.imp (fun x y hxy => ⟨hxy.1, by rw [AreNodesConnected_mark]; exact hxy.2⟩)
            hchain
        · exact List.chain'_singleton _
        · intro x hx y hy
          rw [hlast] at hx
          simp only [Option.mem_def, Option.some.injEq, List.head?_cons] at hx hy
          subst hx hy
          exact ⟨fun hxy => hne hxy.symm, by rw [AreNodesConnected_mark]; exact hadj⟩
      · intro n hn
        have hne2 : g.currentPath ≠ [] := by
          intro hnil
          rw [hnil] at hlast
          simp at hlast
        obtain ⟨a, rest, hcons⟩ := List.exists_cons_of_ne_nil hne2
        simp only [hcons, List.cons_append, List.head?_cons, Option.some.injEq] at hn
        exact hhead n (by simp [hcons, hn])
  | resetPath =>
    simp only [OneLinePuzzle.call, Option.some.injEq] at h
    subst h
    exact ⟨List.chain'_nil, fun n hn => by simp [OneLinePuzzle.ResetPath] at hn⟩
  | checkSolution now =>
    simp only [OneLinePuzzle.call, Option.some.injEq] at h
    subst h
    obtain ⟨hp, he, -⟩ := CheckSolution_path_edges g now
    rw [hp, he]
    exact ⟨hchain, hhead⟩
  | loadLevel level =>
    simp only [OneLinePuzzle.call, Option.some.injEq] at h
    subst h
    rw [LoadLevel_currentPath]
    exact ⟨List.chain'_nil, fun n hn => by simp at hn⟩

theorem calls_preserve (cs : List Call) : ∀ (g g1 : OneLinePuzzle) (start : Option Int),
    List.Chain' (fun x y => x ≠ y ∧ AreNodesConnected g.edges x y = true) g.currentPath →
    (∀ n, g.currentPath.head? = some n → start = some n) →
    g.calls cs = some g1 →
    List.Chain' (fun x y => x ≠ y ∧ AreNodesConnected g1.edges x y = true) g1.currentPath ∧
    (∀ n, g1.currentPath.head? = some n → lastStartFrom start cs = some n) := by
  induction cs with
  | nil =>
    intro g g1 start hchain hhead h
    simp only [OneLinePuzzle.calls, Option.some.injEq] at h
    subst h
    exact ⟨hchain, hhead⟩
  | cons c rest ih =>
    intro g g1 start hchain hhead h
    simp only [OneLinePuzzle.calls] at h
    cases hc : g.call c with
    | none => simp [hc] at h
    | some g2 =>
      rw [hc, Option.some_bind] at h
      obtain ⟨h1, h2⟩ := call_preserves g g2 start c hchain hhead hc
      exact ih g2 g1 _ h1 h2 h

/-- Claim C8.  In every state reached from a level load by any sequence of
`StartPath`, `UpdatePath`, `ResetPath`, `CheckSolution` and `LoadLevel` calls,
every two consecutive ids of `currentPath` are distinct and are the two
endpoints of an edge of the current edge list, and a non-empty `currentPath`
begins with the node passed to the most recent `StartPath`. -/
theorem path_adjacency_invariant (g0 g : OneLinePuzzle) (level : Int) (cs : List Call)
    (h : (g0.LoadLevel level).calls cs = some g) :
    List.Chain' (fun x y => x ≠ y ∧ ∃ e ∈ g.edges,
      (e.nodeA = x ∧ e.nodeB = y) ∨ (e.nodeA = y ∧ e.nodeB = x)) g.currentPath ∧
    (∀ n, g.currentPath.head? = some n → lastStart cs = some n) := by
  obtain ⟨h1, h2⟩ := calls_preserve cs (g0.LoadLevel level) g none
    (by rw [LoadLevel_currentPath]; exact List.chain'_nil)
    (fun n hn => by rw [LoadLevel_currentPath] at hn; simp at hn) h
  refine ⟨List.Chain'.imp ?_ h1, h2⟩
  intro x y hxy
  refine ⟨hxy.1, ?_⟩
  obtain ⟨e, he, hj⟩ := (AreNodesConnected_iff _ _ _).mp hxy.2
  refine ⟨e, he, ?_⟩
  simpa [Edge.joins] using hj

/-- The invariant on level 1 after `StartPath(0)`, two extensions and a release. -/
theorem path_adjacency_invariant_witness :
    (OneLinePuzzle.new.LoadLevel 1).calls
      [Call.startPath 0 0, Call.updatePath (pointerOn ⟨705, 707⟩),
       Call.updatePath (pointerOn ⟨1175, 707⟩), Call.checkSolution 5] = some level1Released ∧
    level1Released.currentPath = [0, 1, 2] ∧
    List.Chain' (fun x y => x ≠ y ∧ ∃ e ∈ level1Released.edges,
      (e.nodeA = x ∧ e.nodeB = y) ∨ (e.nodeA = y ∧ e.nodeB = x)) level1Released.currentPath ∧
    (∀ n, level1Released.currentPath.head? = some n →
      lastStart [Call.startPath 0 0, Call.updatePath (pointerOn ⟨705, 707⟩),
        Call.updatePath (pointerOn ⟨1175, 707⟩), Call.checkSolution 5] = some n) :=
  ⟨rfl, by decide, path_adjacency_invariant OneLinePuzzle.new level1Released 1 _ rfl⟩

theorem incrementAt_spec (ds : List Int) : ∀ (k : Nat) (ds1 : List Int),
    incrementAt ds k = some ds1 →
    k < ds.length ∧ ds1.length = ds.length ∧ ds1.sum = ds.sum + 1 ∧
    (∀ j, ds1.getD j 0 = ds.getD j 0 + (if j = k then 1 else 0)) ∧
    ((∀ d ∈ ds, 0 ≤ d) → ∀ d ∈ ds1, 0 ≤ d) := by
  induction ds with
  | nil =>
    intro k ds1 h
    simp [incrementAt] at h
  | cons d rest ih =>
    intro k ds1 h
    cases k with
    | zero =>
      simp only [incrementAt, Option.some.injEq] at h
      subst h
      refine ⟨by simp, by simp, by simp; ring, ?_, ?_⟩
      · intro j
        cases j with
        | zero => simp
        | succ j => simp
      · intro hnn x hx
        rcases List.mem_cons.mp hx with rfl | hx
        · have := hnn d (List.mem_cons_self _ _)
          omega
        · exact hnn x (List.mem_cons_of_mem _ hx)
    | succ k =>
      simp only [incrementAt, Option.map_eq_some'] at h
      obtain ⟨r, hr, rfl⟩ := h
      obtain ⟨h1, h2, h3, h4, h5⟩ := ih k r hr
      refine ⟨by simp; omega, by simp [h2], by simp [h3]; ring, ?_, ?_⟩
      · intro j
        cases j with
        | zero => simp
        | succ j => simpa using h4 j
      · intro hnn x hx
        rcases List.mem_cons.mp hx with rfl | hx
        · exact hnn x (List.mem_cons_self _ _)
        · exact h5 (fun y hy => hnn y (List.mem_cons_of_mem _ hy)) x hx

theorem incrementAt_some (ds : List Int) : ∀ k, k < ds.length → ∃ ds1, incrementAt ds k = some ds1 := by
  induction ds with
  | nil => intro k hk; simp at hk
  | cons d rest ih =>
    intro k hk
    cases k with
    | zero => exact ⟨_, rfl⟩
    | succ k =>
      obtain ⟨r, hr⟩ := ih k (by simpa using hk)
      exact ⟨d :: r, by simp [incrementAt, hr]⟩

theorem incrementDegree_spec (ds ds1 : List Int) (i : Int)
    (h : incrementDegree ds i = some ds1) :
    (0 ≤ i ∧ i < ds.length) ∧ ds1.length = ds.length ∧ ds1.sum = ds.sum + 1 ∧
    (∀ v : Int, 0 ≤ v → ds1.getD v.toNat 0 = ds.getD v.toNat 0 + isNode i v) ∧
    ((∀ d ∈ ds, 0 ≤ d) → ∀ d ∈ ds1, 0 ≤ d) := by
  unfold incrementDegree at h
  split at h
  · rename_i h0
    obtain ⟨h1, h2, h3, h4, h5⟩ := incrementAt_spec ds _ ds1 h
    refine ⟨⟨h0, by omega⟩, h2, h3, ?_, h5⟩
    intro v hv
    rw [h4 v.toNat]
    congr 1
    unfold isNode
    by_cases hiv : i = v
    · simp [hiv]
    · have : ¬ v.toNat = i.toNat := by omega
      simp [hiv, this]
  · simp at h

theorem incrementDegree_some (ds : List Int) (i : Int) (h0 : 0 ≤ i) (h1 : i < ds.length) :
    ∃ ds1, incrementDegree ds i = some ds1 := by
  unfold incrementDegree
  rw [if_pos h0]
  exact incrementAt_some ds _ (by omega)

theorem incidences_cons (e : Edge) (rest : List Edge) (v : Int) :
    incidences (e :: rest) v = isNode e.nodeA v + isNode e.nodeB v + incidences rest v := by
  simp [incidences]

/-- What the degree loop computes when it returns: the length is kept, the sum
grows by two for each edge, and entry `v` grows by the number of edge ends at `v`. -/
theorem degreeLoop_spec (edges : List Edge) : ∀ (ds ds1 : List Int),
    degreeLoop ds edges = some ds1 →
    ds1.length = ds.length ∧ ds1.sum = ds.sum + 2 * edges.length ∧
    (∀ v : Int, 0 ≤ v → ds1.getD v.toNat 0 = ds.getD v.toNat 0 + incidences edges v) ∧
    ((∀ d ∈ ds, 0 ≤ d) → ∀ d ∈ ds1, 0 ≤ d) := by
  induction edges with
  | nil =>
    intro ds ds1 h
    simp only [degreeLoop, Option.some.injEq] at h
    subst h
    simp [incidences]
  | cons e rest ih =>
    intro ds ds1 h
    simp only [degreeLoop] at h
    cases ha : incrementDegree ds e.nodeA with
    | none => simp [ha] at h
    | some da =>
      rw [ha, Option.some_bind] at h
      cases hb : incrementDegree da e.nodeB with
      | none => simp [hb] at h
      | some db =>
        rw [hb, Option.some_bind] at h
        obtain ⟨-, a2, a3, a4, a5⟩ := incrementDegree_spec ds da _ ha
        obtain ⟨-, b2, b3, b4, b5⟩ := incrementDegree_spec da db _ hb
        obtain ⟨c2, c3, c4, c5⟩ := ih db ds1 h
        refine ⟨by omega, ?_, ?_, fun hnn => c5 (b5 (a5 hnn))⟩
        · rw [c3, b3, a3, List.length_cons]
          push_cast
          ring
        · intro v hv
          rw [c4 v hv, b4 v hv, a4 v hv, incidences_cons]
          ring

/-- The degree loop returns when every endpoint is a valid index. -/
theorem degreeLoop_some (edges : List Edge) : ∀ (ds : List Int),
    (∀ e ∈ edges, (0 ≤ e.nodeA ∧ e.nodeA < ds.length) ∧ (0 ≤ e.nodeB ∧ e.nodeB < ds.length)) →
    ∃ ds1, degreeLoop ds edges = some ds1 := by
  induction edges with
  | nil => intro ds _; exact ⟨ds, rfl⟩
  | cons e rest ih =>
    intro ds hv
    obtain ⟨⟨a0, a1⟩, ⟨b0, b1⟩⟩ := hv e (List.mem_cons_self _ _)
    obtain ⟨da, ha⟩ := incrementDegree_some ds e.nodeA a0 a1
    have hla := (incrementDegree_spec ds da _ ha).2.1
    obtain ⟨db, hb⟩ := incrementDegree_some da e.nodeB b0 (by rw [hla]; exact b1)
    have hlb := (incrementDegree_spec da db _ hb).2.1
    obtain ⟨ds1, h1⟩ := ih db (fun f hf => by
      rw [hlb, hla]
      exact hv f (List.mem_cons_of_mem _ hf))
    exact ⟨ds1, by simp [degreeLoop, ha, hb, h1]⟩

theorem countOdd_foldl (ds : List Int) (c : Int) :
    ds.foldl (fun oddCount degree => if degree.tmod 2 = 1 then oddCount + 1 else oddCount) c =
      c + countOdd ds := by
  unfold countOdd
  induction ds generalizing c with
  | nil => simp
  | cons d rest ih =>
    rw [List.foldl_cons, List.foldl_cons, ih, ih (if d.tmod 2 = 1 then 0 + 1 else 0)]
    split <;> ring

theorem countOdd_cons (d : Int) (rest : List Int) :
    countOdd (d :: rest) = (if d.tmod 2 = 1 then 1 else 0) + countOdd rest := by
  conv_lhs => unfold countOdd
  rw [List.foldl_cons, countOdd_foldl]
  split <;> simp

/-- The number of odd entries has the parity of the sum. -/
theorem countOdd_parity (ds : List Int) (h : ∀ d ∈ ds, 0 ≤ d) :
    (countOdd ds - ds.sum) % 2 = 0 := by
  induction ds with
  | nil => simp [countOdd]
  | cons d rest ih =>
    have hd := h d (List.mem_cons_self _ _)
    have ih1 := ih (fun x hx => h x (List.mem_cons_of_mem _ hx))
    rw [countOdd_cons, List.sum_cons, Int.tmod_eq_emod hd (by decide)]
    split <;> omega

theorem countOdd_eq_zero (ds : List Int) (h : ∀ d ∈ ds, d % 2 = 0) (hnn : ∀ d ∈ ds, 0 ≤ d) :
    countOdd ds = 0 := by
  induction ds with
  | nil => simp [countOdd]
  | cons d rest ih =>
    have hd := h d (List.mem_cons_self _ _)
    have hd0 := hnn d (List.mem_cons_self _ _)
    rw [countOdd_cons, Int.tmod_eq_emod hd0 (by decide),
      ih (fun x hx => h x (List.mem_cons_of_mem _ hx)) (fun x hx => hnn x (List.mem_cons_of_mem _ hx))]
    simp [hd]

theorem ite_some_mem {α : Type} (c : Prop) [Decidable c] (a : α) (rest : Option α)
    (l : List α) (p : α) (ha : a ∈ l) (hrest : rest = some p → p ∈ l) :
    (if c then some a else rest) = some p → p ∈ l := by
  intro h
  by_cases hc : c
  · rw [if_pos hc] at h
    cases h
    exact ha
  · rw [if_neg hc] at h
    exact hrest h

theorem levelTable_mem_catalog (level : Int) (p : List Node × List Edge) :
    levelTable level = some p → p ∈ catalog := by
  unfold levelTable
  iterate 14
    refine ite_some_mem _ _ _ _ _ ?_ ?_
    · unfold catalog
      repeat (first | exact List.mem_cons_self _ _ | apply List.mem_cons_of_mem)
  intro h
  cases h
/-- Whatever level is asked for, `LoadLevel` installs a graph of the table. -/
theorem LoadLevel_mem_catalog (g : OneLinePuzzle) (level : Int) :
    ((g.LoadLevel level).nodes, (g.LoadLevel level).edges) ∈ catalog := by
  unfold OneLinePuzzle.LoadLevel
  split
  · rename_i nodes edges h
    exact levelTable_mem_catalog level _ h
  · exact List.mem_cons_self _ _

/-- In every level of the table the edge endpoints are valid node indices. -/
theorem catalog_endpoints : ∀ p ∈ catalog, ∀ e ∈ p.2,
    (0 ≤ e.nodeA ∧ e.nodeA < p.1.length) ∧ (0 ≤ e.nodeB ∧ e.nodeB < p.1.length) := by
  decide

/-- The handshake lemma for the degree vector. -/
theorem handshake_general (nodes : List Node) (edges : List Edge)
    (h : ∀ e ∈ edges,
      (0 ≤ e.nodeA ∧ e.nodeA < nodes.length) ∧ (0 ≤ e.nodeB ∧ e.nodeB < nodes.length)) :
    ∃ ds, degreeVector nodes edges = some ds ∧ ds.length = nodes.length ∧
      ds.sum = 2 * edges.length ∧ (∀ d ∈ ds, 0 ≤ d) ∧ Even ds.sum ∧ Even (countOdd ds) := by
  obtain ⟨ds, hds⟩ := degreeLoop_some edges (List.replicate nodes.length 0) (by simpa using h)
  obtain ⟨h1, h2, -, h4⟩ := degreeLoop_spec edges _ ds hds
  have hnn : ∀ d ∈ ds, 0 ≤ d := h4 (fun d hd => by
    rw [List.mem_replicate] at hd
    omega)
  have hsum : ds.sum = 2 * edges.length := by
    rw [h2]
    simp
  have hpar := countOdd_parity ds hnn
  refine ⟨ds, hds, by simpa using h1, hsum, hnn, ?_, ?_⟩
  · rw [Int.even_iff]
    omega
  · rw [Int.even_iff]
    omega

/-- Claim C9.  For every graph whose edge endpoints are valid node indices,
`CountOddDegreeNodes` returns, the sum of the node degrees it computes is even
and the number it returns is even; this holds in particular for the graph
`LoadLevel` builds, whatever the level asked for. -/
theorem handshake_parity :
    (∀ g : OneLinePuzzle,
      (∀ e ∈ g.edges, (0 ≤ e.nodeA ∧ e.nodeA < g.nodes.length) ∧
        (0 ≤ e.nodeB ∧ e.nodeB < g.nodes.length)) →
      ∃ ds n, degreeVector g.nodes g.edges = some ds ∧ Even ds.sum ∧
        g.CountOddDegreeNodes = some n ∧ Even n) ∧
    (∀ (g : OneLinePuzzle) (level : Int),
      ∃ ds n, degreeVector (g.LoadLevel level).nodes (g.LoadLevel level).edges = some ds ∧
        Even ds.sum ∧ (g.LoadLevel level).CountOddDegreeNodes = some n ∧ Even n) := by
  have general : ∀ g : OneLinePuzzle,
      (∀ e ∈ g.edges, (0 ≤ e.nodeA ∧ e.nodeA < g.nodes.length) ∧
        (0 ≤ e.nodeB ∧ e.nodeB < g.nodes.length)) →
      ∃ ds n, degreeVector g.nodes g.edges = some ds ∧ Even ds.sum ∧
        g.CountOddDegreeNodes = some n ∧ Even n := by
    intro g hg
    obtain ⟨ds, hds, -, -, -, hev, hodd⟩ := handshake_general g.nodes g.edges hg
    exact ⟨ds, countOdd ds, hds, hev, by simp [OneLinePuzzle.CountOddDegreeNodes, hds], hodd⟩
  refine ⟨general, ?_⟩
  intro g level
  exact general _ (catalog_endpoints _ (LoadLevel_mem_catalog g level))


theorem visitedIncidences_cons (e : Edge) (rest : List Edge) (v : Int) :
    visitedIncidences (e :: rest) v =
      e.visitCount * (isNode e.nodeA v + isNode e.nodeB v) + visitedIncidences rest v := by
  simp [visitedIncidences]

theorem joins_isNode (e : Edge) (a b v : Int) (h : e.joins a b = true) :
    isNode e.nodeA v + isNode e.nodeB v = isNode a v + isNode b v := by
  simp only [Edge.joins, Bool.or_eq_true, Bool.and_eq_true, beq_iff_eq] at h
  rcases h with ⟨h1, h2⟩ | ⟨h1, h2⟩
  · rw [h1, h2]
  · rw [h1, h2, add_comm]

theorem MarkEdgeVisited_cons_of_joins (e : Edge) (rest : List Edge) (a b : Int)
    (h : e.joins a b = true) :
    MarkEdgeVisited (e :: rest) a b = { e with visitCount := e.visitCount + 1 } :: rest := by
  simp [MarkEdgeVisited, h]

theorem MarkEdgeVisited_cons_of_not_joins (e : Edge) (rest : List Edge) (a b : Int)
    (h : ¬ e.joins a b = true) :
    MarkEdgeVisited (e :: rest) a b = e :: MarkEdgeVisited rest a b := by
  simp [MarkEdgeVisited, h]

theorem AreNodesConnected_cons_of_joins (e : Edge) (rest : List Edge) (a b : Int)
    (h : e.joins a b = true) : AreNodesConnected (e :: rest) a b = true := by
  simp [AreNodesConnected, h]

theorem AreNodesConnected_cons_of_not_joins (e : Edge) (rest : List Edge) (a b : Int)
    (h : ¬ e.joins a b = true) :
    AreNodesConnected (e :: rest) a b = AreNodesConnected rest a b := by
  simp [AreNodesConnected, h]

theorem visitedIncidences_mark (edges : List Edge) (a b v : Int) :
    visitedIncidences (MarkEdgeVisited edges a b) v =
      visitedIncidences edges v +
        (if AreNodesConnected edges a b = true then isNode a v + isNode b v else 0) := by
  induction edges with
  | nil => simp [MarkEdgeVisited, AreNodesConnected, visitedIncidences]
  | cons e rest ih =>
    by_cases h : e.joins a b = true
    · rw [MarkEdgeVisited_cons_of_joins e rest a b h, AreNodesConnected_cons_of_joins e rest a b h,
        visitedIncidences_cons, visitedIncidences_cons, if_pos rfl, ← joins_isNode e a b v h]
      ring
    · rw [MarkEdgeVisited_cons_of_not_joins e rest a b h,
        AreNodesConnected_cons_of_not_joins e rest a b h,
        visitedIncidences_cons, visitedIncidences_cons, ih]
      ring

theorem incidences_mark (edges : List Edge) (a b v : Int) :
    incidences (MarkEdgeVisited edges a b) v = incidences edges v := by
  induction edges with
  | nil => rfl
  | cons e rest ih =>
    by_cases h : e.joins a b = true
    · rw [MarkEdgeVisited_cons_of_joins e rest a b h, incidences_cons, incidences_cons]
    · rw [MarkEdgeVisited_cons_of_not_joins e rest a b h, incidences_cons, incidences_cons, ih]

theorem incidences_zeroed (edges : List Edge) (v : Int) :
    incidences (edges.map (fun edge => { edge with visitCount := 0 })) v = incidences edges v := by
  simp [incidences, Function.comp_def]

theorem visitedIncidences_zeroed (edges : List Edge) (v : Int) :
    visitedIncidences (edges.map (fun edge => { edge with visitCount := 0 })) v = 0 := by
  induction edges with
  | nil => rfl
  | cons e rest ih =>
    rw [List.map_cons, visitedIncidences_cons, ih]
    simp

theorem visitedIncidences_of_once (edges : List Edge) (v : Int)
    (h : ∀ e ∈ edges, e.visitCount = 1) : visitedIncidences edges v = incidences edges v := by
  induction edges with
  | nil => rfl
  | cons e rest ih =>
    rw [visitedIncidences_cons, incidences_cons, ih (fun f hf => h f (List.mem_cons_of_mem _ hf)),
      h e (List.mem_cons_self _ _)]
    ring

theorem pathIncidences_append (path : List Int) (a b v : Int)
    (h : path.getLast? = some a) :
    pathIncidences (path ++ [b]) v = pathIncidences path v + isNode a v + isNode b v := by
  induction path with
  | nil => simp at h
  | cons x rest ih =>
    cases rest with
    | nil =>
      simp only [List.getLast?_singleton, Option.some.injEq] at h
      subst h
      simp [pathIncidences]
    | cons y rest2 =>
      have h2 : (y :: rest2).getLast? = some a := by
        rw [← h, List.getLast?_cons_cons]
      have ih2 := ih h2
      simp only [List.cons_append] at ih2 ⊢
      simp only [pathIncidences, ih2]
      ring

/-- The number of step ends of a path at `v` is odd exactly when `v` is one, and
only one, of its two ends. -/
theorem pathIncidences_parity (v : Int) (ps : List Int) : ∀ (a l : Int),
    (a :: ps).getLast? = some l →
    (pathIncidences (a :: ps) v - isNode a v - isNode l v) % 2 = 0 := by
  induction ps with
  | nil =>
    intro a l h
    simp only [List.getLast?_singleton, Option.some.injEq] at h
    subst h
    simp only [pathIncidences]
    omega
  | cons b rest ih =>
    intro a l h
    rw [List.getLast?_cons_cons] at h
    have := ih b l h
    simp only [pathIncidences]
    omega

theorem UpdatePathTo_invariant (g g1 : OneLinePuzzle) (nearestNode s : Int)
    (h : g.UpdatePathTo nearestNode = some g1)
    (hhead : g.currentPath.head? = some s)
    (hinv : ∀ v, visitedIncidences g.edges v = pathIncidences g.currentPath v) :
    g1.currentPath.head? = some s ∧
    (∀ v, visitedIncidences g1.edges v = pathIncidences g1.currentPath v) ∧
    (∀ v, incidences g1.edges v = incidences g.edges v) := by
  rcases UpdatePathTo_cases g g1 _ h with rfl | ⟨lastNode, node, hlast, -, hadj, -, rfl⟩
  · exact ⟨hhead, hinv, fun _ => rfl⟩
  · refine ⟨?_, ?_, ?_⟩
    · cases hp : g.currentPath with
      | nil => simp [hp] at hhead
      | cons x rest =>
        rw [hp] at hhead
        simpa using hhead
    · intro v
      simp only [visitedIncidences_mark, hadj, if_true, pathIncidences_append _ _ _ _ hlast, hinv v]
      ring
    · intro v
      exact incidences_mark _ _ _ _

/-- Along a stroke the visit-weighted number of edge ends at every node equals
the number of step ends of the path there. -/
theorem UpdatePaths_invariant (pointer : List (Vector2 → Bool)) :
    ∀ (g g1 : OneLinePuzzle) (s : Int),
    g.UpdatePaths pointer = some g1 →
    g.currentPath.head? = some s →
    (∀ v, visitedIncidences g.edges v = pathIncidences g.currentPath v) →
    g1.currentPath.head? = some s ∧
    (∀ v, visitedIncidences g1.edges v = pathIncidences g1.currentPath v) ∧
    (∀ v, incidences g1.edges v = incidences g.edges v) := by
  induction pointer with
  | nil =>
    intro g g1 s h hhead hinv
    simp only [OneLinePuzzle.UpdatePaths, Option.some.injEq] at h
    subst h
    exact ⟨hhead, hinv, fun _ => rfl⟩
  | cons near rest ih =>
    intro g g1 s h hhead hinv
    simp only [OneLinePuzzle.UpdatePaths] at h
    cases hc : g.UpdatePath near with
    | none => simp [hc] at h
    | some g2 =>
      rw [hc, Option.some_bind] at h
      obtain ⟨h1, h2, h3⟩ := UpdatePathTo_invariant g g2 _ s hc hhead hinv
      obtain ⟨k1, k2, k3⟩ := ih g2 g1 s h h1 h2
      exact ⟨k1, k2, fun v => (k3 v).trans (h3 v)⟩

/-- A stroke that ends with every edge visited once is an Euler walk: the
degree of every node equals the number of step ends the path has there. -/
theorem solved_stroke_degrees (g g1 : OneLinePuzzle) (s : Int) (now : ℚ)
    (pointer : List (Vector2 → Bool))
    (hrun : g.stroke s now pointer = some g1)
    (hsolved : allVisitedOnce g1.edges = true) :
    (0 ≤ s ∧ s < g.nodes.length) ∧
    ∃ ps, g1.currentPath = s :: ps ∧ ∀ v, incidences g.edges v = pathIncidences (s :: ps) v := by
  unfold OneLinePuzzle.stroke at hrun
  cases hs : g.StartPath s now with
  | none => simp [hs] at hrun
  | some g0 =>
    rw [hs, Option.some_bind] at hrun
    obtain ⟨hpath, hedges, -, hs0, hs1⟩ := StartPath_currentPath g g0 s now hs
    obtain ⟨k1, k2, k3⟩ := UpdatePaths_invariant pointer g0 g1 s hrun (by simp [hpath])
      (fun v => by rw [hedges, visitedIncidences_zeroed, hpath]; rfl)
    refine ⟨⟨hs0, hs1⟩, ?_⟩
    cases hp : g1.currentPath with
    | nil => simp [hp] at k1
    | cons x rest =>
      rw [hp] at k1
      simp only [List.head?_cons, Option.some.injEq] at k1
      subst k1
      refine ⟨rest, rfl, ?_⟩
      intro v
      rw [← hp, ← k2 v, visitedIncidences_of_once _ _ ((allVisitedOnce_iff _).mp hsolved), k3 v,
        hedges, incidences_zeroed]


theorem isNode_self (v : Int) : isNode v v = 1 := by
  simp [isNode]

theorem isNode_cases (x v : Int) : (x = v ∧ isNode x v = 1) ∨ (x ≠ v ∧ isNode x v = 0) := by
  unfold isNode
  by_cases h : x = v
  · left; exact ⟨h, by simp [h]⟩
  · right; exact ⟨h, by simp [h]⟩

theorem degreeVector_spec (nodes : List Node) (edges : List Edge) (ds : List Int)
    (h : degreeVector nodes edges = some ds) :
    ds.length = nodes.length ∧ (∀ d ∈ ds, 0 ≤ d) ∧
    (∀ v : Int, 0 ≤ v → ds.getD v.toNat 0 = incidences edges v) := by
  obtain ⟨h1, -, h3, h4⟩ := degreeLoop_spec edges _ ds h
  refine ⟨by simpa using h1, h4 (fun d hd => by rw [List.mem_replicate] at hd; omega), ?_⟩
  intro v hv
  rw [h3 v hv]
  have : (List.replicate nodes.length (0 : Int)).getD v.toNat 0 = 0 := by
    rw [List.getD_eq_getElem?_getD]
    by_cases hlt : v.toNat < nodes.length
    · simp [List.getElem?_replicate, hlt]
    · simp [List.getElem?_replicate, hlt]
  rw [this, zero_add]

/-- Claim C10.  Let the graph have `CountOddDegreeNodes() == 2`, the case in
which the hint tells the player to start from a node with odd connections.
If a stroke `StartPath(s)` followed by any sequence of `UpdatePath` calls ends
in a state where `CheckSolution` takes the solved branch, then the degree of
the start node `s`, as `CountOddDegreeNodes` computes it, is odd.  So a stroke
begun at a node of even degree is never solved. -/
theorem odd_hint_sound (g g1 : OneLinePuzzle) (s : Int) (now : ℚ)
    (pointer : List (Vector2 → Bool))
    (hodd : g.CountOddDegreeNodes = some 2)
    (hrun : g.stroke s now pointer = some g1)
    (hsolved : allVisitedOnce g1.edges = true) :
    ∃ ds d, degreeVector g.nodes g.edges = some ds ∧ vectorAt ds s = some d ∧ d.tmod 2 = 1 := by
  obtain ⟨⟨hs0, hs1⟩, ps, -, hdeg⟩ := solved_stroke_degrees g g1 s now pointer hrun hsolved
  unfold OneLinePuzzle.CountOddDegreeNodes at hodd
  cases hdv : degreeVector g.nodes g.edges with
  | none => simp [hdv] at hodd
  | some ds =>
    rw [hdv] at hodd
    simp only [Option.map_some', Option.some.injEq] at hodd
    obtain ⟨hlen, hnn, hget⟩ := degreeVector_spec g.nodes g.edges ds hdv
    have hsn : s.toNat < ds.length := by omega
    have hat : vectorAt ds s = some (ds.getD s.toNat 0) := by
      unfold vectorAt
      rw [if_pos hs0, List.getD_eq_getElem _ _ hsn, List.getElem?_eq_getElem hsn]
    refine ⟨ds, ds.getD s.toNat 0, rfl, hat, ?_⟩
    have hd0 : 0 ≤ ds.getD s.toNat 0 := by
      rw [List.getD_eq_getElem _ _ hsn]
      exact hnn _ (List.getElem_mem _)
    rw [Int.tmod_eq_emod hd0 (by decide)]
    by_contra hne
    have heven : ds.getD s.toNat 0 % 2 = 0 := by omega
    -- the walk is closed, hence every degree is even
    have hlast : (s :: ps).getLast? = some ((s :: ps).getLast (by simp)) :=
      List.getLast?_eq_getLast _ _
    have hpar := fun v => pathIncidences_parity v ps s _ hlast
    have hclosed : (s :: ps).getLast (by simp) = s := by
      have h1 := hpar s
      rw [← hdeg s, ← hget s hs0, isNode_self] at h1
      rcases isNode_cases ((s :: ps).getLast (by simp)) s with ⟨h2, -⟩ | ⟨-, h2⟩
      · exact h2
      · rw [h2] at h1
        omega
    have hall : ∀ d ∈ ds, d % 2 = 0 := by
      intro d hd
      obtain ⟨k, hk, rfl⟩ := List.getElem_of_mem hd
      have h1 := hpar (k : Int)
      rw [hclosed, ← hdeg k, ← hget k (by omega), Int.toNat_ofNat, List.getD_eq_getElem _ _ hk] at h1
      rcases isNode_cases s k with ⟨-, h2⟩ | ⟨-, h2⟩ <;> rw [h2] at h1 <;> omega
    rw [countOdd_eq_zero ds hall hnn] at hodd
    omega

/-- Level 12 has two odd nodes, 2 and 3; the stroke `[3, 2, 0, 1, 2]` solves it, and
its start node 3 has odd degree. -/
theorem odd_hint_sound_witness :
    (OneLinePuzzle.new.LoadLevel 12).CountOddDegreeNodes = some 2 ∧
    (OneLinePuzzle.new.LoadLevel 12).stroke 3 0
      [pointerOn ⟨940, 618⟩, pointerOn ⟨822, 441⟩, pointerOn ⟨705, 618⟩, pointerOn ⟨940, 618⟩]
      = some level12Traced ∧
    allVisitedOnce level12Traced.edges = true ∧
    ∃ ds d, degreeVector (OneLinePuzzle.new.LoadLevel 12).nodes
        (OneLinePuzzle.new.LoadLevel 12).edges = some ds ∧
      vectorAt ds 3 = some d ∧ d.tmod 2 = 1 :=
  ⟨by decide, rfl, by decide,
    odd_hint_sound (OneLinePuzzle.new.LoadLevel 12) level12Traced 3 0
      [pointerOn ⟨940, 618⟩, pointerOn ⟨822, 441⟩, pointerOn ⟨705, 618⟩, pointerOn ⟨940, 618⟩]
      (by decide) rfl (by decide)⟩


/-- A stroke along a walk whose steps are distinct and connected, in a graph
that lists no unordered pair twice, records the walk and leaves every edge with
the number of times the walk runs along it. -/
theorem stroke_along_walk (g : OneLinePuzzle) (p0 : Int) (ps : List Int)
    (pointer : List (Vector2 → Bool)) (t0 : ℚ)
    (hdup : g.edges.Pairwise (fun e f => ¬ e.joins f.nodeA f.nodeB = true))
    (hnode : ∀ p ∈ p0 :: ps, 0 ≤ p ∧ p < g.nodes.length)
    (hres : pointer.map (GetNodeAtPosition g.nodes) = ps)
    (hadj : List.Chain (fun x y => x ≠ y ∧ AreNodesConnected g.edges x y = true) p0 ps) :
    ∃ g1, g.stroke p0 t0 pointer = some g1 ∧
      g1.currentPath = p0 :: ps ∧
      g1.edges = g.edges.map (fun e => { e with visitCount := traversals e (p0 :: ps) }) := by
  obtain ⟨g0, hstart, hpath, hedges, hnodes, -⟩ :=
    StartPath_eq g p0 t0 (hnode p0 (List.mem_cons_self _ _)).1 (hnode p0 (List.mem_cons_self _ _)).2
  have hres0 : pointer.map (GetNodeAtPosition g0.nodes) = ps := by
    rw [hnodes, ← hres]
    exact List.map_congr_left (fun near _ => GetNodeAtPosition_unhighlight g.nodes near)
  have hchain : List.Chain (fun x y => x ≠ y ∧ AreNodesConnected g0.edges x y = true) p0 ps := by
    refine List.Chain.imp ?_ hadj
    intro x y hxy
    exact ⟨hxy.1, by rw [hedges, AreNodesConnected_zeroed]; exact hxy.2⟩
  obtain ⟨pts, hrun⟩ := UpdatePaths_along pointer g0 p0 ps (by simp [hpath]) hres0
    (fun p hp => by
      have := hnode p (List.mem_cons_of_mem _ hp)
      rw [hnodes]
      simpa using this) hchain
  have hdup0 : g0.edges.Pairwise (fun e f => ¬ e.joins f.nodeA f.nodeB = true) := by
    rw [hedges]
    exact List.Pairwise.map _ (fun e f h => h) hdup
  refine ⟨_, by simp only [OneLinePuzzle.stroke, hstart, Option.some_bind]; exact hrun, ?_, ?_⟩
  · simp [hpath]
  · show markAlong g0.edges p0 ps = _
    rw [markAlong_of_pairwise ps g0.edges p0 hdup0, hedges, List.map_map]
    apply List.map_congr_left
    intro e _
    simp only [Function.comp, traversals_withVisitCount]
    congr 1
    exact zero_add _

theorem walkConnected_chain (edges : List Edge) (hloop : ∀ e ∈ edges, e.nodeA ≠ e.nodeB)
    (ps : List Int) : ∀ p0 : Int, walkConnected edges (p0 :: ps) = true →
    List.Chain (fun x y => x ≠ y ∧ AreNodesConnected edges x y = true) p0 ps := by
  induction ps with
  | nil => intro p0 _; exact List.Chain.nil
  | cons b rest ih =>
    intro p0 h
    simp only [walkConnected, Bool.and_eq_true] at h
    refine List.Chain.cons ⟨?_, h.1⟩ (ih b h.2)
    intro hxy
    subst hxy
    obtain ⟨e, he, hj⟩ := (AreNodesConnected_iff edges p0 p0).mp h.1
    apply hloop e he
    simp only [Edge.joins, Bool.or_eq_true, Bool.and_eq_true, beq_iff_eq] at hj
    omega

/-- What is checked, by evaluation, of every level of the table and the walk
listed for it. -/
theorem catalog_walks_check : ∀ pw ∈ catalog.zip catalogWalks,
    pw.2 ≠ [] ∧
    (∀ e ∈ pw.1.2, e.nodeA ≠ e.nodeB) ∧
    pw.1.2.Pairwise (fun e f => ¬ e.joins f.nodeA f.nodeB = true) ∧
    (∀ p ∈ pw.2, 0 ≤ p ∧ p < pw.1.1.length) ∧
    (pointerAlong pw.1.1 pw.2.tail).map (GetNodeAtPosition pw.1.1) = pw.2.tail ∧
    walkConnected pw.1.2 pw.2 = true ∧
    (∀ e ∈ pw.1.2, traversals e pw.2 = 1) ∧
    (∀ i ∈ List.range pw.1.1.length, (i : Int) ∈ pw.2) ∧
    ((degreeVector pw.1.1 pw.1.2).map countOdd = some 0 ∨
      (degreeVector pw.1.1 pw.1.2).map countOdd = some 2) := by
  decide


theorem levelTable_in_range (level : Int) (h1 : 1 ≤ level) (h14 : level ≤ 14) :
    ∃ p, levelTable level = some p ∧ (p, solutionWalk level) ∈ catalog.zip catalogWalks := by
  interval_cases level <;> exact ⟨_, rfl, by decide⟩

theorem LoadLevel_of_levelTable (g : OneLinePuzzle) (level : Int) (p : List Node × List Edge)
    (h : levelTable level = some p) :
    g.LoadLevel level = { g.clearForLoad with nodes := p.1, edges := p.2 } := by
  unfold OneLinePuzzle.LoadLevel
  rw [h]

/-- Claim C11.  For each level 1 to 14, in the state `LoadLevel` leaves, there
are a start node and a sequence of nodes such that `StartPath` on the start
node followed by `UpdatePath` with the pointer resolving to those nodes in
order records that walk and ends with every edge visited once, so that
`CheckSolution` takes the solved branch and sets `levelComplete`.  For each of
these levels `CountOddDegreeNodes` returns 0 or 2, so the hint selection never
takes its last branch. -/
theorem catalog_levels_solvable (g0 : OneLinePuzzle) (level : Int) (t0 t1 : ℚ)
    (h1 : 1 ≤ level) (h14 : level ≤ 14) :
    (∃ start ps pointer g1,
      pointer.map (GetNodeAtPosition (g0.LoadLevel level).nodes) = ps ∧
      (g0.LoadLevel level).stroke start t0 pointer = some g1 ∧
      g1.currentPath = start :: ps ∧
      allVisitedOnce g1.edges = true ∧ (g1.CheckSolution t1).levelComplete = true) ∧
    ((g0.LoadLevel level).CountOddDegreeNodes = some 0 ∨
      (g0.LoadLevel level).CountOddDegreeNodes = some 2) ∧
    (∃ oddCount, (g0.LoadLevel level).CountOddDegreeNodes = some oddCount ∧
      hintText oddCount ≠ "This puzzle has a solution - keep trying!") := by
  obtain ⟨p, hp, hmem⟩ := levelTable_in_range level h1 h14
  obtain ⟨hne, hloop, hdup, hnode, hres, hconn, honce, -, hodd⟩ := catalog_walks_check _ hmem
  have hload := LoadLevel_of_levelTable g0 level p hp
  have hn : (g0.LoadLevel level).nodes = p.1 := by rw [hload]
  have he : (g0.LoadLevel level).edges = p.2 := by rw [hload]
  simp only at hne hloop hdup hnode hres hconn honce hodd
  obtain ⟨start, rest, hw⟩ := List.exists_cons_of_ne_nil hne
  rw [hw] at hnode hres hconn honce
  simp only [List.tail_cons] at hres
  refine ⟨?_, ?_, ?_⟩
  · obtain ⟨g1, hrun, hpath, hedges⟩ := stroke_along_walk (g0.LoadLevel level) start rest
      (pointerAlong p.1 rest) t0 (by rw [he]; exact hdup) (by rw [hn]; exact hnode)
      (by rw [hn]; exact hres) (by rw [he]; exact walkConnected_chain p.2 hloop rest start hconn)
    have hall : allVisitedOnce g1.edges = true := by
      rw [allVisitedOnce_iff, hedges, he]
      intro e hm
      obtain ⟨f, hf, rfl⟩ := List.mem_map.mp hm
      exact honce f hf
    exact ⟨start, rest, _, g1, by rw [hn]; exact hres, hrun, hpath, hall,
      (CheckSolution_of_allVisitedOnce g1 t1 hall).1⟩
  · unfold OneLinePuzzle.CountOddDegreeNodes
    rw [hn, he]
    exact hodd
  · unfold OneLinePuzzle.CountOddDegreeNodes
    rw [hn, he]
    rcases hodd with h | h
    · exact ⟨0, h, by decide⟩
    · exact ⟨2, h, by decide⟩

/-- Level 5 is solvable and its hint is not the fallback text. -/
theorem catalog_levels_solvable_witness :
    (∃ start ps pointer g1,
      pointer.map (GetNodeAtPosition (OneLinePuzzle.new.LoadLevel 5).nodes) = ps ∧
      (OneLinePuzzle.new.LoadLevel 5).stroke start 0 pointer = some g1 ∧
      g1.currentPath = start :: ps ∧
      allVisitedOnce g1.edges = true ∧ (g1.CheckSolution 9).levelComplete = true) ∧
    ((OneLinePuzzle.new.LoadLevel 5).CountOddDegreeNodes = some 0 ∨
      (OneLinePuzzle.new.LoadLevel 5).CountOddDegreeNodes = some 2) ∧
    (∃ oddCount, (OneLinePuzzle.new.LoadLevel 5).CountOddDegreeNodes = some oddCount ∧
      hintText oddCount ≠ "This puzzle has a solution - keep trying!") :=
  catalog_levels_solvable OneLinePuzzle.new 5 0 9 (by decide) (by decide)

theorem levelTable_out_of_range (level : Int) (h : level < 1 ∨ 14 < level) :
    levelTable level = none := by
  unfold levelTable
  iterate 14 rw [if_neg (by omega)]

/-- Claim C12.  For every level number outside 1..14, `LoadLevel` returns with
the nodes and edges of level 1 loaded, every visit count 0 and the path empty,
which is the graph state `LoadLevel(1)` leaves, and with `currentLevel` set to
1; the whole state is that of `LoadLevel(1)` with `currentLevel` set to 1. -/
theorem loadLevel_out_of_range (g : OneLinePuzzle) (level : Int)
    (h : level < 1 ∨ 14 < level) :
    (g.LoadLevel level).nodes = level1Nodes ∧
    (g.LoadLevel level).edges = level1Edges ∧
    (∀ e ∈ (g.LoadLevel level).edges, e.visitCount = 0) ∧
    (g.LoadLevel level).currentPath = [] ∧
    (g.LoadLevel level).pathPoints = [] ∧
    (g.LoadLevel level).currentLevel = 1 ∧
    (g.LoadLevel level).nodes = (g.LoadLevel 1).nodes ∧
    (g.LoadLevel level).edges = (g.LoadLevel 1).edges ∧
    g.LoadLevel level = { g.LoadLevel 1 with currentLevel := 1 } := by
  have hnone := levelTable_out_of_range level h
  have h0 : g.LoadLevel level =
      { OneLinePuzzle.clearForLoad { g.clearForLoad with currentLevel := 1 } with
        nodes := level1Nodes, edges := level1Edges } := by
    unfold OneLinePuzzle.LoadLevel
    rw [hnone]
  have h1 : g.LoadLevel 1 = { g.clearForLoad with nodes := level1Nodes, edges := level1Edges } :=
    LoadLevel_of_levelTable g 1 (level1Nodes, level1Edges) rfl
  rw [h0, h1]
  refine ⟨rfl, rfl, ?_, rfl, rfl, rfl, rfl, rfl, rfl⟩
  show ∀ e ∈ level1Edges, e.visitCount = 0
  decide

/-- The fallback at level 0 and at level 15. -/
theorem loadLevel_out_of_range_witness :
    ((0 : Int) < 1 ∨ (14 : Int) < 0) ∧
    (OneLinePuzzle.new.LoadLevel 0).nodes = level1Nodes ∧
    (OneLinePuzzle.new.LoadLevel 0).currentLevel = 1 :=
  ⟨by decide, (loadLevel_out_of_range OneLinePuzzle.new 0 (by decide)).1,
    (loadLevel_out_of_range OneLinePuzzle.new 0 (by decide)).2.2.2.2.2.1⟩


/-- When the two nodes are connected, `MarkEdgeVisited` increments the first
edge joining them and nothing else. -/
theorem MarkEdgeVisited_split (edges : List Edge) (a b : Int)
    (h : AreNodesConnected edges a b = true) :
    ∃ pre e post, edges = pre ++ e :: post ∧ e.joins a b = true ∧
      (∀ f ∈ pre, f.joins a b = false) ∧
      MarkEdgeVisited edges a b =
        pre ++ { e with visitCount := e.visitCount + 1 } :: post := by
  induction edges with
  | nil => simp [AreNodesConnected] at h
  | cons e rest ih =>
    by_cases hj : e.joins a b = true
    · exact ⟨[], e, rest, rfl, hj, by simp, by
        rw [MarkEdgeVisited_cons_of_joins e rest a b hj]
        rfl⟩
    · rw [AreNodesConnected_cons_of_not_joins e rest a b hj] at h
      obtain ⟨pre, e1, post, h1, h2, h3, h4⟩ := ih h
      refine ⟨e :: pre, e1, post, by rw [h1]; rfl, h2, ?_, ?_⟩
      · intro f hf
        rcases List.mem_cons.mp hf with rfl | hf
        · simpa using hj
        · exact h3 f hf
      · rw [MarkEdgeVisited_cons_of_not_joins e rest a b hj, h4]
        rfl

/-- Claim C13.  `UpdatePath` returns the state unchanged when the path is
empty, when the pointer resolves to no node (`-1`), when it resolves to the
last path element, and when it resolves to a node that is not connected to the
last path element.  In the remaining case, a different, connected node of the
node list, the path grows by exactly that node, `pathPoints` by its position,
and exactly one edge, the first one joining the two nodes, has its
`visitCount` increased by 1; all other edges are as before. -/
theorem updatePath_noop_or_extend (g : OneLinePuzzle) (near : Vector2 → Bool) :
    (g.currentPath = [] → g.UpdatePath near = some g) ∧
    (GetNodeAtPosition g.nodes near = -1 → g.UpdatePath near = some g) ∧
    (g.currentPath.getLast? = some (GetNodeAtPosition g.nodes near) →
      g.UpdatePath near = some g) ∧
    (∀ lastNode, g.currentPath.getLast? = some lastNode →
      AreNodesConnected g.edges lastNode (GetNodeAtPosition g.nodes near) = false →
      g.UpdatePath near = some g) ∧
    (∀ lastNode node, g.currentPath.getLast? = some lastNode →
      GetNodeAtPosition g.nodes near ≠ -1 →
      GetNodeAtPosition g.nodes near ≠ lastNode →
      AreNodesConnected g.edges lastNode (GetNodeAtPosition g.nodes near) = true →
      vectorAt g.nodes (GetNodeAtPosition g.nodes near) = some node →
      ∃ pre e post, g.edges = pre ++ e :: post ∧
        e.joins lastNode (GetNodeAtPosition g.nodes near) = true ∧
        (∀ f ∈ pre, f.joins lastNode (GetNodeAtPosition g.nodes near) = false) ∧
        g.UpdatePath near = some { g with
          currentPath := g.currentPath ++ [GetNodeAtPosition g.nodes near]
          pathPoints := g.pathPoints ++ [node.position]
          edges := pre ++ { e with visitCount := e.visitCount + 1 } :: post }) := by
  refine ⟨?_, ?_, ?_, ?_, ?_⟩
  · intro h
    simp [OneLinePuzzle.UpdatePath, OneLinePuzzle.UpdatePathTo, h]
  · intro h
    unfold OneLinePuzzle.UpdatePath OneLinePuzzle.UpdatePathTo
    rw [h]
    split
    · rfl
    · simp
  · intro h
    unfold OneLinePuzzle.UpdatePath OneLinePuzzle.UpdatePathTo
    rw [h]
    simp
  · intro lastNode hlast hadj
    unfold OneLinePuzzle.UpdatePath OneLinePuzzle.UpdatePathTo
    rw [hlast]
    simp [hadj]
  · intro lastNode node hlast h1 h2 hadj hnode
    obtain ⟨pre, e, post, hsplit, hj, hpre, hmark⟩ := MarkEdgeVisited_split g.edges lastNode _ hadj
    refine ⟨pre, e, post, hsplit, hj, hpre, ?_⟩
    rw [← hmark]
    exact UpdatePathTo_extend g lastNode _ node hlast (fun h => h2 h.symm) hnode hadj

theorem ResetPath_idempotent (g : OneLinePuzzle) : g.ResetPath.ResetPath = g.ResetPath := by
  simp [OneLinePuzzle.ResetPath, Function.comp_def]

/-- Claim C14.  From every prior state, `StartPath(n)` for a valid node id `n`
returns with `currentPath` equal to `[n]`, every edge's `visitCount` equal to 0
and `isDrawing` true; the state is the one `ResetPath` followed by
`StartPath(n)` gives. -/
theorem startPath_fresh (g : OneLinePuzzle) (n : Int) (now : ℚ)
    (h0 : 0 ≤ n) (h1 : n < g.nodes.length) :
    ∃ g1, g.StartPath n now = some g1 ∧
      g1.currentPath = [n] ∧
      (∀ e ∈ g1.edges, e.visitCount = 0) ∧
      g1.isDrawing = true ∧
      g.ResetPath.StartPath n now = some g1 := by
  obtain ⟨g1, hstart, hpath, hedges, -, hdraw, -⟩ := StartPath_eq g n now h0 h1
  refine ⟨g1, hstart, hpath, ?_, hdraw, ?_⟩
  · intro e he
    rw [hedges] at he
    obtain ⟨f, _, rfl⟩ := List.mem_map.mp he
    rfl
  · rw [← hstart]
    unfold OneLinePuzzle.StartPath
    rw [ResetPath_idempotent]

/-- Starting a stroke at node 2 of level 1 in the middle of the retraced
stroke `[0, 1, 2, 0, 1]`. -/
theorem startPath_fresh_witness :
    level1Retraced.currentPath = [0, 1, 2, 0, 1] ∧
    ∃ g1, level1Retraced.StartPath 2 7 = some g1 ∧
      g1.currentPath = [2] ∧
      (∀ e ∈ g1.edges, e.visitCount = 0) ∧
      g1.isDrawing = true ∧
      level1Retraced.ResetPath.StartPath 2 7 = some g1 :=
  ⟨by decide, startPath_fresh level1Retraced 2 7 (by decide) (by decide)⟩


theorem joins_comm (e : Edge) (a b : Int) : e.joins a b = e.joins b a := by
  unfold Edge.joins
  rw [Bool.or_comm]

theorem AreNodesConnected_comm (edges : List Edge) (a b : Int) :
    AreNodesConnected edges a b = AreNodesConnected edges b a := by
  induction edges with
  | nil => rfl
  | cons e rest ih => simp only [AreNodesConnected, joins_comm e a b, ih]

/-- Every node of a walk is reachable from its first node. -/
theorem walk_reach_from_head (edges : List Edge) (ps : List Int) : ∀ p0 : Int,
    walkConnected edges (p0 :: ps) = true → ∀ x ∈ p0 :: ps,
    Relation.ReflTransGen (fun a b => AreNodesConnected edges a b = true) p0 x := by
  induction ps with
  | nil =>
    intro p0 _ x hx
    simp only [List.mem_singleton] at hx
    subst hx
    exact Relation.ReflTransGen.refl
  | cons b rest ih =>
    intro p0 h x hx
    simp only [walkConnected, Bool.and_eq_true] at h
    rcases List.mem_cons.mp hx with rfl | hx
    · exact Relation.ReflTransGen.refl
    · exact Relation.ReflTransGen.head h.1 (ih b h.2 x hx)

/-- Any two nodes of a walk are joined by a chain of connected nodes. -/
theorem walk_connects (edges : List Edge) (walk : List Int)
    (h : walkConnected edges walk = true) (u v : Int) (hu : u ∈ walk) (hv : v ∈ walk) :
    Relation.ReflTransGen (fun a b => AreNodesConnected edges a b = true) u v := by
  cases walk with
  | nil => simp at hu
  | cons p0 ps =>
    have hsymm : Symmetric (fun a b => AreNodesConnected edges a b = true) := by
      intro a b hab
      rw [AreNodesConnected_comm]
      exact hab
    exact Relation.ReflTransGen.trans
      (Relation.ReflTransGen.symmetric hsymm (walk_reach_from_head edges ps p0 h u hu))
      (walk_reach_from_head edges ps p0 h v hv)

/-- What is checked, by evaluation, of the nodes and edges of every level of
the table. -/
theorem catalog_shape_check : ∀ p ∈ catalog,
    p.1.map (fun node => node.id) = (List.range p.1.length).map (fun i => (i : Int)) ∧
    (∀ e ∈ p.2, (0 ≤ e.nodeA ∧ e.nodeA < p.1.length) ∧ (0 ≤ e.nodeB ∧ e.nodeB < p.1.length)) ∧
    (∀ e ∈ p.2, (vectorAt p.1 e.nodeA).isSome = true ∧ (vectorAt p.1 e.nodeB).isSome = true) ∧
    (degreeVector p.1 p.2).isSome = true ∧
    (∀ e ∈ p.2, e.nodeA ≠ e.nodeB) ∧
    p.2.Pairwise (fun e f => ¬ e.joins f.nodeA f.nodeB = true) ∧
    (∀ e ∈ p.2, e.visitCount = 0) := by
  decide

theorem zip_mem_left {α β : Type} (l : List α) (m : List β) (a : α) (b : β)
    (h : (a, b) ∈ l.zip m) : a ∈ l :=
  (List.of_mem_zip h).1

/-- Claim C16.  Each of the 14 levels of the table is well formed: the ids of
its `n` nodes are `0 .. n-1`, each equal to the node's position in the list;
every edge endpoint is an id below `n`, so that `nodes[...]` and `degrees[...]`
are indexed in bounds; no edge joins a node to itself; no unordered pair is
listed twice; every edge starts with `visitCount == 0`; and the graph is
connected: any two nodes are joined by a chain of connected nodes. -/
theorem catalog_well_formed (g : OneLinePuzzle) (level : Int)
    (h1 : 1 ≤ level) (h14 : level ≤ 14) :
    ∃ nodes edges, levelTable level = some (nodes, edges) ∧
      (g.LoadLevel level).nodes = nodes ∧ (g.LoadLevel level).edges = edges ∧
      nodes.map (fun node => node.id) = (List.range nodes.length).map (fun i => (i : Int)) ∧
      (∀ e ∈ edges,
        (0 ≤ e.nodeA ∧ e.nodeA < nodes.length) ∧ (0 ≤ e.nodeB ∧ e.nodeB < nodes.length)) ∧
      (∀ e ∈ edges,
        (vectorAt nodes e.nodeA).isSome = true ∧ (vectorAt nodes e.nodeB).isSome = true) ∧
      (degreeVector nodes edges).isSome = true ∧
      (∀ e ∈ edges, e.nodeA ≠ e.nodeB) ∧
      edges.Pairwise (fun e f => ¬ e.joins f.nodeA f.nodeB = true) ∧
      (∀ e ∈ edges, e.visitCount = 0) ∧
      (∀ u v : Int, 0 ≤ u → u < nodes.length → 0 ≤ v → v < nodes.length →
        Relation.ReflTransGen (fun a b => AreNodesConnected edges a b = true) u v) := by
  obtain ⟨p, hp, hmem⟩ := levelTable_in_range level h1 h14
  obtain ⟨-, -, -, -, -, hconn, -, hspan, -⟩ := catalog_walks_check _ hmem
  simp only at hconn hspan
  obtain ⟨c1, c2, c3, c4, c5, c6, c7⟩ := catalog_shape_check p (zip_mem_left _ _ _ _ hmem)
  have hload := LoadLevel_of_levelTable g level p hp
  refine ⟨p.1, p.2, hp, by rw [hload], by rw [hload], c1, c2, c3, c4, c5, c6, c7, ?_⟩
  intro u v hu0 hu1 hv0 hv1
  have hin : ∀ x : Int, 0 ≤ x → x < p.1.length → x ∈ solutionWalk level := by
    intro x hx0 hx1
    have := hspan x.toNat (List.mem_range.mpr (by omega))
    rwa [Int.toNat_of_nonneg hx0] at this
  exact walk_connects p.2 (solutionWalk level) hconn u v (hin u hu0 hu1) (hin v hv0 hv1)

/-- Level 2, of nine nodes and ten edges, is well formed. -/
theorem catalog_well_formed_witness :
    ∃ nodes edges, levelTable 2 = some (nodes, edges) ∧
      (OneLinePuzzle.new.LoadLevel 2).nodes = nodes ∧
      (OneLinePuzzle.new.LoadLevel 2).edges = edges ∧
      nodes.map (fun node => node.id) = (List.range nodes.length).map (fun i => (i : Int)) ∧
      (∀ e ∈ edges,
        (0 ≤ e.nodeA ∧ e.nodeA < nodes.length) ∧ (0 ≤ e.nodeB ∧ e.nodeB < nodes.length)) ∧
      (∀ e ∈ edges,
        (vectorAt nodes e.nodeA).isSome = true ∧ (vectorAt nodes e.nodeB).isSome = true) ∧
      (degreeVector nodes edges).isSome = true ∧
      (∀ e ∈ edges, e.nodeA ≠ e.nodeB) ∧
      edges.Pairwise (fun e f => ¬ e.joins f.nodeA f.nodeB = true) ∧
      (∀ e ∈ edges, e.visitCount = 0) ∧
      (∀ u v : Int, 0 ≤ u → u < nodes.length → 0 ≤ v → v < nodes.length →
        Relation.ReflTransGen (fun a b => AreNodesConnected edges a b = true) u v) :=
  catalog_well_formed OneLinePuzzle.new 2 (by decide) (by decide)


theorem UpdateShakeAnimation_core (g : OneLinePuzzle) (deltaTime : ℚ) :
    (g.UpdateShakeAnimation deltaTime).core = g.core ∧
    (g.UpdateShakeAnimation deltaTime).nodes = g.nodes ∧
    (g.UpdateShakeAnimation deltaTime).isDrawing = g.isDrawing ∧
    (g.UpdateShakeAnimation deltaTime).showHintPopup = g.showHintPopup := by
  unfold OneLinePuzzle.UpdateShakeAnimation
  split
  · simp only []
    split <;> exact ⟨rfl, rfl, rfl, rfl⟩
  · exact ⟨rfl, rfl, rfl, rfl⟩

theorem updateHintFade_core (g : OneLinePuzzle) (deltaTime : ℚ) :
    (g.updateHintFade deltaTime).core = g.core ∧
    (g.updateHintFade deltaTime).nodes = g.nodes ∧
    (g.updateHintFade deltaTime).isDrawing = g.isDrawing ∧
    (g.updateHintFade deltaTime).showHintPopup = g.showHintPopup := by
  unfold OneLinePuzzle.updateHintFade
  split
  · simp only []
    split <;> exact ⟨rfl, rfl, rfl, rfl⟩
  · split
    · simp only []
      split <;> exact ⟨rfl, rfl, rfl, rfl⟩
    · exact ⟨rfl, rfl, rfl, rfl⟩

theorem closeHintOnClick_core (g : OneLinePuzzle) (pressed : Bool) :
    (g.closeHintOnClick pressed).core = g.core ∧
    (g.closeHintOnClick pressed).nodes = g.nodes ∧
    (g.closeHintOnClick pressed).isDrawing = g.isDrawing ∧
    (pressed = true → (g.closeHintOnClick pressed).showHintPopup = false) := by
  unfold OneLinePuzzle.closeHintOnClick
  split
  · exact ⟨rfl, rfl, rfl, fun _ => rfl⟩
  · rename_i h
    refine ⟨rfl, rfl, rfl, fun hp => ?_⟩
    cases hs : g.showHintPopup with
    | false => rfl
    | true => exact absurd ⟨hs, hp⟩ h

/-- The shake, the popup fade and the closing click leave the levels, the
score, the screen, the path, the edges, the nodes and the flags `levelComplete`
and `isDrawing` alone; after a click the popup is closed. -/
theorem updateOverlays_core (g : OneLinePuzzle) (f : Frame) :
    (g.updateOverlays f).core = g.core ∧
    (g.updateOverlays f).nodes = g.nodes ∧
    (g.updateOverlays f).isDrawing = g.isDrawing ∧
    (f.pressed = true → (g.updateOverlays f).showHintPopup = false) := by
  unfold OneLinePuzzle.updateOverlays
  obtain ⟨a1, a2, a3, -⟩ := UpdateShakeAnimation_core g f.deltaTime
  obtain ⟨b1, b2, b3, -⟩ := updateHintFade_core (g.UpdateShakeAnimation f.deltaTime) f.deltaTime
  obtain ⟨c1, c2, c3, c4⟩ := closeHintOnClick_core
    ((g.UpdateShakeAnimation f.deltaTime).updateHintFade f.deltaTime) f.pressed
  exact ⟨c1.trans (b1.trans a1), c2.trans (b2.trans a2), c3.trans (b3.trans a3), c4⟩

theorem core_eq_iff (g h : OneLinePuzzle) : g.core = h.core ↔
    g.currentLevel = h.currentLevel ∧ g.maxUnlockedLevel = h.maxUnlockedLevel ∧
    g.totalScore = h.totalScore ∧ g.gameState = h.gameState ∧
    g.currentPath = h.currentPath ∧ g.edges = h.edges ∧ g.levelComplete = h.levelComplete := by
  simp [OneLinePuzzle.core]

theorem StartPath_progress (g g1 : OneLinePuzzle) (nodeId : Int) (now : ℚ)
    (h : g.StartPath nodeId now = some g1) :
    g1.currentLevel = g.currentLevel ∧ g1.maxUnlockedLevel = g.maxUnlockedLevel ∧
    g1.totalScore = g.totalScore ∧ g1.gameState = g.gameState ∧
    g1.levelComplete = g.levelComplete := by
  unfold OneLinePuzzle.StartPath at h
  simp only [OneLinePuzzle.ResetPath] at h
  split at h
  · simp at h
  · split at h <;>
    · simp only [Option.some.injEq] at h
      subst h
      exact ⟨rfl, rfl, rfl, rfl, rfl⟩

theorem UpdatePath_progress (g g1 : OneLinePuzzle) (near : Vector2 → Bool)
    (h : g.UpdatePath near = some g1) :
    g1.currentLevel = g.currentLevel ∧ g1.maxUnlockedLevel = g.maxUnlockedLevel ∧
    g1.totalScore = g.totalScore ∧ g1.gameState = g.gameState ∧
    g1.levelComplete = g.levelComplete := by
  rcases UpdatePathTo_cases g g1 _ h with rfl | ⟨_, _, -, -, -, -, rfl⟩ <;>
    exact ⟨rfl, rfl, rfl, rfl, rfl⟩

theorem CalculateScore_ge (t : ℚ) : 20 ≤ CalculateScore t := by
  unfold CalculateScore
  exact le_max_left _ _

/-- What `CheckSolution` does to the levels and the score. -/
theorem CheckSolution_progress (g : OneLinePuzzle) (now : ℚ) :
    (g.CheckSolution now).currentLevel = g.currentLevel ∧
    (g.CheckSolution now).gameState = g.gameState ∧
    ((allVisitedOnce g.edges = true ∧
        (g.CheckSolution now).totalScore = g.totalScore + CalculateScore (now - g.levelStartTime) ∧
        (g.CheckSolution now).maxUnlockedLevel =
          (if g.currentLevel = g.maxUnlockedLevel ∧ g.currentLevel < 14
            then g.currentLevel + 1 else g.maxUnlockedLevel)) ∨
      (¬ allVisitedOnce g.edges = true ∧
        (g.CheckSolution now).totalScore = g.totalScore ∧
        (g.CheckSolution now).maxUnlockedLevel = g.maxUnlockedLevel ∧
        (g.CheckSolution now).levelComplete = g.levelComplete)) := by
  unfold OneLinePuzzle.CheckSolution
  by_cases h1 : allVisitedOnce g.edges = true
  · simp only [h1, if_true]
    split
    · exact ⟨rfl, rfl, Or.inl ⟨trivial, rfl, rfl⟩⟩
    · exact ⟨rfl, rfl, Or.inl ⟨trivial, rfl, rfl⟩⟩
  · rw [if_neg h1]
    split
    · exact ⟨rfl, rfl, Or.inr ⟨h1, rfl, rfl, rfl⟩⟩
    · exact ⟨rfl, rfl, Or.inr ⟨h1, rfl, rfl, rfl⟩⟩

theorem LoadLevel_progress (g : OneLinePuzzle) (level : Int) :
    (g.LoadLevel level).maxUnlockedLevel = g.maxUnlockedLevel ∧
    (g.LoadLevel level).totalScore = g.totalScore ∧
    (g.LoadLevel level).gameState = g.gameState ∧
    ((g.LoadLevel level).currentLevel = g.currentLevel ∨ (g.LoadLevel level).currentLevel = 1) ∧
    (levelTable level ≠ none → (g.LoadLevel level).currentLevel = g.currentLevel) := by
  unfold OneLinePuzzle.LoadLevel
  split
  · exact ⟨rfl, rfl, rfl, Or.inl rfl, fun _ => rfl⟩
  · rename_i h
    exact ⟨rfl, rfl, rfl, Or.inr rfl, fun hne => absurd h hne⟩


theorem pressStep_cases (g g1 : OneLinePuzzle) (f : Frame) (h : g.pressStep f = some g1) :
    g1 = g ∨ (f.pressed = true ∧ ∃ nodeId, g.StartPath nodeId f.timeAtStart = some g1) := by
  unfold OneLinePuzzle.pressStep at h
  split at h
  · rename_i hp
    simp only [] at h
    split at h
    · exact Or.inr ⟨hp, _, h⟩
    · exact Or.inl (by simpa using h.symm)
  · exact Or.inl (by simpa using h.symm)

theorem dragStep_cases (g g1 : OneLinePuzzle) (f : Frame) (h : g.dragStep f = some g1) :
    g1 = g ∨ (g.isDrawing = true ∧ g.UpdatePath f.near = some g1) := by
  unfold OneLinePuzzle.dragStep at h
  split at h
  · rename_i hd
    exact Or.inr ⟨hd.2, h⟩
  · exact Or.inl (by simpa using h.symm)

theorem releaseStep_cases (g : OneLinePuzzle) (f : Frame) :
    g.releaseStep f = g ∨
    (f.released = true ∧ g.isDrawing = true ∧
      g.releaseStep f = { g.CheckSolution f.timeAtCheck with isDrawing := false }) := by
  unfold OneLinePuzzle.releaseStep
  split
  · rename_i hr
    exact Or.inr ⟨hr.1, hr.2, rfl⟩
  · exact Or.inl rfl

/-- The hover step writes the nodes only. -/
theorem hoverStep_cases (g g1 : OneLinePuzzle) (f : Frame) (h : g.hoverStep f = some g1) :
    ∃ nodes, g1 = { g with nodes := nodes } := by
  unfold OneLinePuzzle.hoverStep at h
  simp only [] at h
  split at h
  · split at h
    · obtain ⟨nodes, -, rfl⟩ := Option.map_eq_some'.mp h
      exact ⟨nodes, rfl⟩
    · exact ⟨_, by simpa using h.symm⟩
  · exact ⟨_, by simpa using h.symm⟩

theorem updateStroke_cases (g g1 : OneLinePuzzle) (f : Frame)
    (h : g.updateStroke f = some g1) :
    ((g.levelComplete = true ∨ g.showHintPopup = true) ∧ g1 = g) ∨
    (g.levelComplete = false ∧ ∃ ga gb nodes, g.pressStep f = some ga ∧ ga.dragStep f = some gb ∧
      g1 = { gb.releaseStep f with nodes := nodes }) := by
  unfold OneLinePuzzle.updateStroke at h
  split at h
  · rename_i hg
    exact Or.inl ⟨hg, by simpa using h.symm⟩
  · rename_i hg
    obtain ⟨ga, hA, h⟩ := Option.bind_eq_some.mp h
    obtain ⟨gb, hB, h⟩ := Option.bind_eq_some.mp h
    obtain ⟨nodes, hn⟩ := hoverStep_cases _ g1 f h
    refine Or.inr ⟨?_, ga, gb, nodes, hA, hB, hn⟩
    cases hl : g.levelComplete with
    | false => rfl
    | true => exact absurd (Or.inl hl) hg

/-- The stroke part of `Update` keeps the level and the screen; the score and
`maxUnlockedLevel` change only through a `CheckSolution` call, made on a
release, that takes the solved branch. -/
theorem updateStroke_progress (g g1 : OneLinePuzzle) (f : Frame)
    (h : g.updateStroke f = some g1) :
    g1.currentLevel = g.currentLevel ∧ g1.gameState = g.gameState ∧
    ((g1.totalScore = g.totalScore ∧ g1.maxUnlockedLevel = g.maxUnlockedLevel) ∨
      (f.released = true ∧ ∃ g2 : OneLinePuzzle, allVisitedOnce g2.edges = true ∧
        g1.totalScore = g.totalScore + CalculateScore (f.timeAtCheck - g2.levelStartTime) ∧
        g1.maxUnlockedLevel =
          (if g.currentLevel = g.maxUnlockedLevel ∧ g.currentLevel < 14
            then g.currentLevel + 1 else g.maxUnlockedLevel))) := by
  rcases updateStroke_cases g g1 f h with ⟨-, rfl⟩ | ⟨-, ga, gb, nodes, hA, hB, rfl⟩
  · exact ⟨rfl, rfl, Or.inl ⟨rfl, rfl⟩⟩
  · have pa : ga.currentLevel = g.currentLevel ∧ ga.maxUnlockedLevel = g.maxUnlockedLevel ∧
        ga.totalScore = g.totalScore ∧ ga.gameState = g.gameState ∧
        ga.levelComplete = g.levelComplete := by
      rcases pressStep_cases g ga f hA with rfl | ⟨-, n, hs⟩
      · exact ⟨rfl, rfl, rfl, rfl, rfl⟩
      · exact StartPath_progress g ga _ _ hs
    have pb : gb.currentLevel = ga.currentLevel ∧ gb.maxUnlockedLevel = ga.maxUnlockedLevel ∧
        gb.totalScore = ga.totalScore ∧ gb.gameState = ga.gameState ∧
        gb.levelComplete = ga.levelComplete := by
      rcases dragStep_cases ga gb f hB with rfl | ⟨-, hu⟩
      · exact ⟨rfl, rfl, rfl, rfl, rfl⟩
      · exact UpdatePath_progress ga gb _ hu
    rcases releaseStep_cases gb f with hr | ⟨hrel, -, hr⟩
    · rw [hr]
      exact ⟨by rw [← pa.1, ← pb.1], by rw [← pa.2.2.2.1, ← pb.2.2.2.1],
        Or.inl ⟨by rw [← pa.2.2.1, ← pb.2.2.1], by rw [← pa.2.1, ← pb.2.1]⟩⟩
    · rw [hr]
      obtain ⟨c1, c2, c3⟩ := CheckSolution_progress gb f.timeAtCheck
      refine ⟨by rw [← pa.1, ← pb.1, ← c1], by rw [← pa.2.2.2.1, ← pb.2.2.2.1, ← c2], ?_⟩
      rcases c3 with ⟨s1, s2, s3⟩ | ⟨-, s2, s3, -⟩
      · refine Or.inr ⟨hrel, gb, s1, ?_, ?_⟩
        · show (gb.CheckSolution f.timeAtCheck).totalScore = _
          rw [s2, pb.2.2.1, pa.2.2.1]
        · show (gb.CheckSolution f.timeAtCheck).maxUnlockedLevel = _
          rw [s3, pb.1, pa.1, pb.2.1, pa.2.1]
      · refine Or.inl ⟨?_, ?_⟩
        · show (gb.CheckSolution f.timeAtCheck).totalScore = _
          rw [s2, pb.2.2.1, pa.2.2.1]
        · show (gb.CheckSolution f.timeAtCheck).maxUnlockedLevel = _
          rw [s3, pb.2.1, pa.2.1]


/-- The branches of `Update`. -/
theorem UpdateLogged_cases (g g1 : OneLinePuzzle) (r : Option Int) (f : Frame)
    (h : g.UpdateLogged f = some (g1, r)) :
    (g.gameState = GameState.START_SCREEN ∧
      g1 = OneLinePuzzle.LoadLevel { g with gameState := GameState.PLAYING } g.currentLevel ∧
      r = some g.currentLevel) ∨
    (g.gameState = GameState.START_SCREEN ∧ g1 = g ∧ r = none) ∨
    (g.gameState ≠ GameState.START_SCREEN ∧ f.pressed = true ∧ f.onResetButton = true ∧
      g1 = (g.updateOverlays f).ResetPath ∧ r = none) ∨
    (g.gameState ≠ GameState.START_SCREEN ∧
      g1 = { g.updateOverlays f with showHintPopup := true, hintPopupFadingIn := true } ∧
      r = none) ∨
    (g.gameState ≠ GameState.START_SCREEN ∧
      (g.updateOverlays f).currentLevel < (g.updateOverlays f).maxUnlockedLevel ∧
      g1 = OneLinePuzzle.LoadLevel
        { g.updateOverlays f with currentLevel := (g.updateOverlays f).currentLevel + 1 }
        ((g.updateOverlays f).currentLevel + 1) ∧
      r = some ((g.updateOverlays f).currentLevel + 1)) ∨
    (g.gameState ≠ GameState.START_SCREEN ∧
      (g.updateOverlays f).currentLevel > 1 ∧
      g1 = OneLinePuzzle.LoadLevel
        { g.updateOverlays f with currentLevel := (g.updateOverlays f).currentLevel - 1 }
        ((g.updateOverlays f).currentLevel - 1) ∧
      r = some ((g.updateOverlays f).currentLevel - 1)) ∨
    (g.gameState ≠ GameState.START_SCREEN ∧ g1 = g.updateOverlays f ∧ r = none) ∨
    (g.gameState ≠ GameState.START_SCREEN ∧
      (f.pressed = true → f.onResetButton = false) ∧
      (g.updateOverlays f).updateStroke f = some g1 ∧ r = none) := by
  unfold OneLinePuzzle.UpdateLogged at h
  split at h
  · rename_i hs
    split at h
    · split at h
      · simp only [Option.some.injEq, Prod.mk.injEq] at h
        exact Or.inl ⟨hs, h.1.symm, h.2.symm⟩
      · simp only [Option.some.injEq, Prod.mk.injEq] at h
        exact Or.inr (Or.inl ⟨hs, h.1.symm, h.2.symm⟩)
    · simp only [Option.some.injEq, Prod.mk.injEq] at h
      exact Or.inr (Or.inl ⟨hs, h.1.symm, h.2.symm⟩)
  · rename_i hs
    simp only [] at h
    split at h
    · rename_i hp
      split at h
      · rename_i hreset
        simp only [Option.some.injEq, Prod.mk.injEq] at h
        exact Or.inr (Or.inr (Or.inl ⟨hs, hp.1, hreset, h.1.symm, h.2.symm⟩))
      · rename_i hreset
        split at h
        · simp only [Option.some.injEq, Prod.mk.injEq] at h
          exact Or.inr (Or.inr (Or.inr (Or.inl ⟨hs, h.1.symm, h.2.symm⟩)))
        · split at h
          · split at h
            · rename_i hlt
              simp only [Option.some.injEq, Prod.mk.injEq] at h
              exact Or.inr (Or.inr (Or.inr (Or.inr (Or.inl ⟨hs, hlt, h.1.symm, h.2.symm⟩))))
            · simp only [Option.some.injEq, Prod.mk.injEq] at h
              exact Or.inr (Or.inr (Or.inr (Or.inr (Or.inr (Or.inr
                (Or.inl ⟨hs, h.1.symm, h.2.symm⟩))))))
          · split at h
            · split at h
              · rename_i hgt
                simp only [Option.some.injEq, Prod.mk.injEq] at h
                exact Or.inr (Or.inr (Or.inr (Or.inr (Or.inr
                  (Or.inl ⟨hs, hgt, h.1.symm, h.2.symm⟩)))))
              · simp only [Option.some.injEq, Prod.mk.injEq] at h
                exact Or.inr (Or.inr (Or.inr (Or.inr (Or.inr (Or.inr
                  (Or.inl ⟨hs, h.1.symm, h.2.symm⟩))))))
            · obtain ⟨g4, h4, heq⟩ := Option.map_eq_some'.mp h
              simp only [Prod.mk.injEq] at heq
              obtain ⟨rfl, rfl⟩ := heq
              refine Or.inr (Or.inr (Or.inr (Or.inr (Or.inr (Or.inr (Or.inr
                ⟨hs, fun _ => ?_, h4, rfl⟩))))))
              cases hr : f.onResetButton with
              | false => rfl
              | true => exact absurd hr hreset
    · rename_i hp
      obtain ⟨g4, h4, heq⟩ := Option.map_eq_some'.mp h
      simp only [Prod.mk.injEq] at heq
      obtain ⟨rfl, rfl⟩ := heq
      refine Or.inr (Or.inr (Or.inr (Or.inr (Or.inr (Or.inr (Or.inr
        ⟨hs, fun hpr => ?_, h4, rfl⟩))))))
      exact absurd ⟨hpr, (updateOverlays_core g f).2.2.2 hpr⟩ hp


/-- Claim C15.  Across every engine operation `maxUnlockedLevel` and
`totalScore` never decrease, and `totalScore` changes only in a `CheckSolution`
call that takes the solved branch, where it grows by the computed score, which
is at least 20.  The first part is about the direct calls `LoadLevel`,
`StartPath`, `UpdatePath`, `ResetPath` and `CheckSolution`; the second about
`Update`, where a call that passes a level to `LoadLevel` (the start button
and the level navigation) leaves both values as they were. -/
theorem progress_monotone :
    (∀ (g g1 : OneLinePuzzle) (c : Call), g.call c = some g1 →
      g.maxUnlockedLevel ≤ g1.maxUnlockedLevel ∧ g.totalScore ≤ g1.totalScore ∧
      (g1.totalScore ≠ g.totalScore → ∃ now, c = Call.checkSolution now ∧
        allVisitedOnce g.edges = true ∧
        g1.totalScore = g.totalScore + CalculateScore (now - g.levelStartTime) ∧
        20 ≤ CalculateScore (now - g.levelStartTime))) ∧
    (∀ (g g1 : OneLinePuzzle) (f : Frame) (r : Option Int), g.UpdateLogged f = some (g1, r) →
      g.maxUnlockedLevel ≤ g1.maxUnlockedLevel ∧ g.totalScore ≤ g1.totalScore ∧
      (r ≠ none → g1.maxUnlockedLevel = g.maxUnlockedLevel ∧ g1.totalScore = g.totalScore) ∧
      (g1.totalScore ≠ g.totalScore → f.released = true ∧ ∃ g2 : OneLinePuzzle,
        allVisitedOnce g2.edges = true ∧
        g1.totalScore = g.totalScore + CalculateScore (f.timeAtCheck - g2.levelStartTime) ∧
        20 ≤ CalculateScore (f.timeAtCheck - g2.levelStartTime))) := by
  constructor
  · intro g g1 c h
    cases c with
    | startPath nodeId now =>
      obtain ⟨-, h2, h3, -⟩ := StartPath_progress g g1 nodeId now h
      exact ⟨by rw [h2], by rw [h3], fun hne => absurd h3 hne⟩
    | updatePath near =>
      obtain ⟨-, h2, h3, -⟩ := UpdatePath_progress g g1 near h
      exact ⟨by rw [h2], by rw [h3], fun hne => absurd h3 hne⟩
    | resetPath =>
      simp only [OneLinePuzzle.call, Option.some.injEq] at h
      subst h
      exact ⟨le_refl _, le_refl _, fun hne => absurd rfl hne⟩
    | checkSolution now =>
      simp only [OneLinePuzzle.call, Option.some.injEq] at h
      subst h
      obtain ⟨-, -, c3⟩ := CheckSolution_progress g now
      have h20 := CalculateScore_ge (now - g.levelStartTime)
      rcases c3 with ⟨s1, s2, s3⟩ | ⟨-, s2, s3, -⟩
      · refine ⟨?_, by rw [s2]; omega, fun _ => ⟨now, rfl, s1, s2, h20⟩⟩
        rw [s3]
        split <;> omega
      · exact ⟨by rw [s3], by rw [s2], fun hne => absurd s2 hne⟩
    | loadLevel level =>
      simp only [OneLinePuzzle.call, Option.some.injEq] at h
      subst h
      obtain ⟨h1, h2, -⟩ := LoadLevel_progress g level
      exact ⟨by rw [h1], by rw [h2], fun hne => absurd h2 hne⟩
  · intro g g1 f r h
    obtain ⟨hcore, -⟩ := updateOverlays_core g f
    obtain ⟨-, o2, o3, -⟩ := (core_eq_iff _ _).mp hcore
    have same : g1.maxUnlockedLevel = g.maxUnlockedLevel → g1.totalScore = g.totalScore →
        g.maxUnlockedLevel ≤ g1.maxUnlockedLevel ∧ g.totalScore ≤ g1.totalScore ∧
        (r ≠ none → g1.maxUnlockedLevel = g.maxUnlockedLevel ∧ g1.totalScore = g.totalScore) ∧
        (g1.totalScore ≠ g.totalScore → f.released = true ∧ ∃ g2 : OneLinePuzzle,
          allVisitedOnce g2.edges = true ∧
          g1.totalScore = g.totalScore + CalculateScore (f.timeAtCheck - g2.levelStartTime) ∧
          20 ≤ CalculateScore (f.timeAtCheck - g2.levelStartTime)) :=
      fun h1 h2 => ⟨by rw [h1], by rw [h2], fun _ => ⟨h1, h2⟩, fun hne => absurd h2 hne⟩
    rcases UpdateLogged_cases g g1 r f h with ⟨-, rfl, -⟩ | ⟨-, rfl, -⟩ | ⟨-, -, -, rfl, -⟩ |
      ⟨-, rfl, -⟩ | ⟨-, -, rfl, -⟩ | ⟨-, -, rfl, -⟩ | ⟨-, rfl, -⟩ | ⟨-, -, hs, rfl⟩
    · obtain ⟨h1, h2, -⟩ := LoadLevel_progress { g with gameState := GameState.PLAYING } g.currentLevel
      exact same h1 h2
    · exact same rfl rfl
    · exact same o2 o3
    · exact same o2 o3
    · obtain ⟨h1, h2, -⟩ := LoadLevel_progress
        { g.updateOverlays f with currentLevel := (g.updateOverlays f).currentLevel + 1 }
        ((g.updateOverlays f).currentLevel + 1)
      exact same (h1.trans o2) (h2.trans o3)
    · obtain ⟨h1, h2, -⟩ := LoadLevel_progress
        { g.updateOverlays f with currentLevel := (g.updateOverlays f).currentLevel - 1 }
        ((g.updateOverlays f).currentLevel - 1)
      exact same (h1.trans o2) (h2.trans o3)
    · exact same o2 o3
    · obtain ⟨-, -, p3⟩ := updateStroke_progress _ g1 f hs
      rcases p3 with ⟨s1, s2⟩ | ⟨hrel, g2, s1, s2, s3⟩
      · exact same (s2.trans o2) (s1.trans o3)
      · have h20 := CalculateScore_ge (f.timeAtCheck - g2.levelStartTime)
        rw [o3] at s2
        refine ⟨?_, by rw [s2]; omega, fun hr => absurd rfl hr, fun _ => ⟨hrel, g2, s1, s2, h20⟩⟩
        rw [s3]
        obtain ⟨o1, -⟩ := (core_eq_iff _ _).mp hcore
        rw [o1, o2]
        split <;> omega

theorem Update_reset_click (g : OneLinePuzzle) (f : Frame)
    (hs : g.gameState = GameState.PLAYING) (hp : f.pressed = true)
    (hr : f.onResetButton = true) :
    g.Update f = some (g.updateOverlays f).ResetPath := by
  have hshow := (updateOverlays_core g f).2.2.2 hp
  unfold OneLinePuzzle.Update OneLinePuzzle.UpdateLogged
  rw [if_neg (by rw [hs]; decide)]
  simp only []
  rw [if_pos ⟨hp, hshow⟩, if_pos hr]
  rfl

/-- Claim C17, as amended.  Reset stays available while the level-complete
overlay is shown.  In every playing state, with `levelComplete` true or not, an
`Update` step that carries a click on the reset button performs `ResetPath`:
`currentPath` becomes empty and every edge's `visitCount` becomes 0, while the
edge endpoints and `levelComplete` are as before.  What `levelComplete` blocks
is the stroke: a step with no button pressed leaves `currentPath` and the
edges unchanged. -/
theorem reset_click_resets (g : OneLinePuzzle) (f : Frame)
    (hs : g.gameState = GameState.PLAYING) :
    (f.pressed = true → f.onResetButton = true →
      ∃ g1, g.Update f = some g1 ∧ g1.currentPath = [] ∧
        (∀ e ∈ g1.edges, e.visitCount = 0) ∧
        g1.edges = g.edges.map (fun e => { e with visitCount := 0 }) ∧
        g1.levelComplete = g.levelComplete) ∧
    (g.levelComplete = true → f.pressed = false →
      ∃ g1, g.Update f = some g1 ∧ g1.currentPath = g.currentPath ∧ g1.edges = g.edges) := by
  obtain ⟨hcore, -⟩ := updateOverlays_core g f
  obtain ⟨-, -, -, -, o5, o6, o7⟩ := (core_eq_iff _ _).mp hcore
  constructor
  · intro hp hr
    refine ⟨_, Update_reset_click g f hs hp hr, rfl, ?_, ?_, ?_⟩
    · intro e he
      obtain ⟨e0, -, rfl⟩ := List.mem_map.mp he
      rfl
    · show (g.updateOverlays f).edges.map _ = _
      rw [o6]
    · show (g.updateOverlays f).levelComplete = _
      rw [o7]
  · intro hl hp
    have hstroke : (g.updateOverlays f).updateStroke f = some (g.updateOverlays f) := by
      unfold OneLinePuzzle.updateStroke
      rw [if_pos (Or.inl (o7.trans hl))]
    refine ⟨g.updateOverlays f, ?_, o5, o6⟩
    unfold OneLinePuzzle.Update OneLinePuzzle.UpdateLogged
    rw [if_neg (by rw [hs]; decide)]
    simp only []
    rw [if_neg (by rw [hp]; simp), hstroke]
    rfl

/-- The reset click on the solved level 1. -/
theorem reset_click_resets_witness :
    level1Complete.gameState = GameState.PLAYING ∧
    (resetClick.pressed = true → resetClick.onResetButton = true →
      ∃ g1, level1Complete.Update resetClick = some g1 ∧ g1.currentPath = [] ∧
        (∀ e ∈ g1.edges, e.visitCount = 0) ∧
        g1.edges = level1Complete.edges.map (fun e => { e with visitCount := 0 }) ∧
        g1.levelComplete = level1Complete.levelComplete) :=
  ⟨by decide, (reset_click_resets level1Complete resetClick (by decide)).1⟩

/-- Claim C17 as stated fails.  Level 1, solved by the frames `level1Solve`
from the constructor state, is a playing state with `levelComplete` true, the
path `[0, 1, 2, 0]` and every visit count 1; the `Update` step with a click on
the reset button leaves the path empty and every visit count 0. -/
theorem reset_under_overlay :
    OneLinePuzzle.new.Updates level1Solve = some level1Complete ∧
    level1Complete.gameState = GameState.PLAYING ∧
    level1Complete.levelComplete = true ∧
    resetClick.pressed = true ∧ resetClick.onResetButton = true ∧
    ∃ g1, level1Complete.Update resetClick = some g1 ∧
      g1.currentPath ≠ level1Complete.currentPath ∧
      g1.edges.map (fun e => e.visitCount) ≠ level1Complete.edges.map (fun e => e.visitCount) :=
  ⟨rfl, by decide, by decide, rfl, rfl, _, rfl, by decide, by decide⟩


/-- One `Update` step keeps `1 <= currentLevel <= maxUnlockedLevel <= 14`, and
the level it passes to `LoadLevel`, if any, lies in `1 .. 14`. -/
theorem UpdateLogged_bounds (g g1 : OneLinePuzzle) (r : Option Int) (f : Frame)
    (hinv : 1 ≤ g.currentLevel ∧ g.currentLevel ≤ g.maxUnlockedLevel ∧ g.maxUnlockedLevel ≤ 14)
    (h : g.UpdateLogged f = some (g1, r)) :
    (1 ≤ g1.currentLevel ∧ g1.currentLevel ≤ g1.maxUnlockedLevel ∧ g1.maxUnlockedLevel ≤ 14) ∧
    (∀ level, r = some level → 1 ≤ level ∧ level ≤ 14) := by
  obtain ⟨hcore, -⟩ := updateOverlays_core g f
  obtain ⟨o1, o2, -⟩ := (core_eq_iff _ _).mp hcore
  obtain ⟨i1, i2, i3⟩ := hinv
  rcases UpdateLogged_cases g g1 r f h with ⟨-, rfl, rfl⟩ | ⟨-, rfl, rfl⟩ | ⟨-, -, -, rfl, rfl⟩ |
    ⟨-, rfl, rfl⟩ | ⟨-, hlt, rfl, rfl⟩ | ⟨-, hgt, rfl, rfl⟩ | ⟨-, rfl, rfl⟩ | ⟨-, -, hs, rfl⟩
  · obtain ⟨h1, -, -, h4, -⟩ :=
      LoadLevel_progress { g with gameState := GameState.PLAYING } g.currentLevel
    refine ⟨?_, fun level hl => ?_⟩
    · rw [h1]
      rcases h4 with h4 | h4 <;> rw [h4] <;> simp only [] <;> omega
    · simp only [Option.some.injEq] at hl
      omega
  · exact ⟨⟨i1, i2, i3⟩, fun level hl => by simp at hl⟩
  · refine ⟨?_, fun level hl => by simp at hl⟩
    show 1 ≤ (g.updateOverlays f).currentLevel ∧
      (g.updateOverlays f).currentLevel ≤ (g.updateOverlays f).maxUnlockedLevel ∧
      (g.updateOverlays f).maxUnlockedLevel ≤ 14
    omega
  · refine ⟨?_, fun level hl => by simp at hl⟩
    show 1 ≤ (g.updateOverlays f).currentLevel ∧
      (g.updateOverlays f).currentLevel ≤ (g.updateOverlays f).maxUnlockedLevel ∧
      (g.updateOverlays f).maxUnlockedLevel ≤ 14
    omega
  · obtain ⟨h1, -, -, h4, -⟩ := LoadLevel_progress
      { g.updateOverlays f with currentLevel := (g.updateOverlays f).currentLevel + 1 }
      ((g.updateOverlays f).currentLevel + 1)
    refine ⟨?_, fun level hl => ?_⟩
    · rw [h1]
      rcases h4 with h4 | h4 <;> rw [h4] <;> simp only [] <;> omega
    · simp only [Option.some.injEq] at hl
      omega
  · obtain ⟨h1, -, -, h4, -⟩ := LoadLevel_progress
      { g.updateOverlays f with currentLevel := (g.updateOverlays f).currentLevel - 1 }
      ((g.updateOverlays f).currentLevel - 1)
    refine ⟨?_, fun level hl => ?_⟩
    · rw [h1]
      rcases h4 with h4 | h4 <;> rw [h4] <;> simp only [] <;> omega
    · simp only [Option.some.injEq] at hl
      omega
  · exact ⟨⟨by omega, by omega, by omega⟩, fun level hl => by simp at hl⟩
  · obtain ⟨p1, -, p3⟩ := updateStroke_progress _ g1 f hs
    refine ⟨?_, fun level hl => by simp at hl⟩
    rcases p3 with ⟨-, s2⟩ | ⟨-, -, -, -, s3⟩
    · omega
    · rw [p1, s3]
      split <;> omega

theorem Updates_bounds (fs : List Frame) : ∀ (g g1 : OneLinePuzzle),
    (1 ≤ g.currentLevel ∧ g.currentLevel ≤ g.maxUnlockedLevel ∧ g.maxUnlockedLevel ≤ 14) →
    g.Updates fs = some g1 →
    1 ≤ g1.currentLevel ∧ g1.currentLevel ≤ g1.maxUnlockedLevel ∧ g1.maxUnlockedLevel ≤ 14 := by
  induction fs with
  | nil =>
    intro g g1 hinv h
    simp only [OneLinePuzzle.Updates, Option.some.injEq] at h
    subst h
    exact hinv
  | cons f rest ih =>
    intro g g1 hinv h
    simp only [OneLinePuzzle.Updates] at h
    obtain ⟨g2, h2, h⟩ := Option.bind_eq_some.mp h
    unfold OneLinePuzzle.Update at h2
    obtain ⟨⟨g3, r⟩, h3, rfl⟩ := Option.map_eq_some'.mp h2
    exact ih _ g1 (UpdateLogged_bounds g g3 r f hinv h3).1 h

/-- Claim C18.  In every state reached from the constructor state by `Update`
steps, `1 <= currentLevel <= maxUnlockedLevel <= 14`; so whenever a further
`Update` step calls `LoadLevel`, the level it passes lies in `1 .. 14` and is a
case of the level table, not the fallback. -/
theorem level_bounds_invariant (fs : List Frame) (g : OneLinePuzzle)
    (h : OneLinePuzzle.new.Updates fs = some g) :
    (1 ≤ g.currentLevel ∧ g.currentLevel ≤ g.maxUnlockedLevel ∧ g.maxUnlockedLevel ≤ 14) ∧
    (∀ (f : Frame) (g1 : OneLinePuzzle) (level : Int),
      g.UpdateLogged f = some (g1, some level) →
      1 ≤ level ∧ level ≤ 14 ∧ levelTable level ≠ none) := by
  have hinv := Updates_bounds fs OneLinePuzzle.new g (by decide) h
  refine ⟨hinv, ?_⟩
  intro f g1 level hf
  obtain ⟨hl1, hl14⟩ := (UpdateLogged_bounds g g1 _ f hinv hf).2 level rfl
  refine ⟨hl1, hl14, ?_⟩
  obtain ⟨p, hp, -⟩ := levelTable_in_range level hl1 hl14
  rw [hp]
  simp

/-- The bounds after level 1 has been solved and the next level opened. -/
theorem level_bounds_invariant_witness :
    OneLinePuzzle.new.Updates level1Play = some level2Loaded ∧
    level2Loaded.currentLevel = 2 ∧ level2Loaded.maxUnlockedLevel = 2 ∧
    (1 ≤ level2Loaded.currentLevel ∧ level2Loaded.currentLevel ≤ level2Loaded.maxUnlockedLevel ∧
      level2Loaded.maxUnlockedLevel ≤ 14) :=
  ⟨rfl, by decide, by decide, (level_bounds_invariant level1Play level2Loaded rfl).1⟩


theorem traversals_append (e : Edge) (path : List Int) (a b : Int)
    (h : path.getLast? = some a) :
    traversals e (path ++ [b]) = traversals e path + (if e.joins a b then 1 else 0) := by
  induction path with
  | nil => simp at h
  | cons x rest ih =>
    cases rest with
    | nil =>
      simp only [List.getLast?_singleton, Option.some.injEq] at h
      subst h
      simp [traversals]
    | cons y rest2 =>
      have h2 : (y :: rest2).getLast? = some a := by
        rw [← h, List.getLast?_cons_cons]
      have ih2 := ih h2
      simp only [List.cons_append] at ih2 ⊢
      simp only [traversals, ih2]
      ring

theorem visitSum_mark (edges : List Edge) (a b : Int)
    (h : AreNodesConnected edges a b = true) :
    ((MarkEdgeVisited edges a b).map (fun e => e.visitCount)).sum =
      (edges.map (fun e => e.visitCount)).sum + 1 := by
  obtain ⟨pre, e, post, h1, -, -, h4⟩ := MarkEdgeVisited_split edges a b h
  rw [h4, h1]
  simp only [List.map_append, List.map_cons, List.sum_append, List.sum_cons]
  ring

theorem visitSum_zeroed (edges : List Edge) :
    ((edges.map (fun edge => { edge with visitCount := 0 })).map (fun e => e.visitCount)).sum = 0 := by
  induction edges with
  | nil => rfl
  | cons e rest ih =>
    simp only [List.map_cons, List.sum_cons, List.map_map] at ih ⊢
    rw [ih]
    rfl

theorem visitSum_of_once (edges : List Edge) (h : ∀ e ∈ edges, e.visitCount = 1) :
    (edges.map (fun e => e.visitCount)).sum = edges.length := by
  induction edges with
  | nil => rfl
  | cons e rest ih =>
    rw [List.map_cons, List.sum_cons, ih (fun f hf => h f (List.mem_cons_of_mem _ hf)),
      h e (List.mem_cons_self _ _), List.length_cons]
    push_cast
    ring

/-- One call keeps the three facts the mirror property rests on: no unordered
pair is listed twice, every visit count is the number of times the path runs
along the edge, and the visit counts add up to the number of steps of the
path. -/
theorem call_mirror (g g1 : OneLinePuzzle) (c : Call)
    (hdup : g.edges.Pairwise (fun e f => ¬ e.joins f.nodeA f.nodeB = true))
    (hcount : ∀ e ∈ g.edges, e.visitCount = traversals e g.currentPath)
    (hsum : (g.edges.map (fun e => e.visitCount)).sum = ((g.currentPath.length - 1 : Nat) : Int))
    (h : g.call c = some g1) :
    g1.edges.Pairwise (fun e f => ¬ e.joins f.nodeA f.nodeB = true) ∧
    (∀ e ∈ g1.edges, e.visitCount = traversals e g1.currentPath) ∧
    (g1.edges.map (fun e => e.visitCount)).sum = ((g1.currentPath.length - 1 : Nat) : Int) := by
  have zeroed : ∀ (h1 : OneLinePuzzle) (n : List Int), n.length ≤ 1 → h1.currentPath = n →
      h1.edges = g.edges.map (fun edge => { edge with visitCount := 0 }) →
      h1.edges.Pairwise (fun e f => ¬ e.joins f.nodeA f.nodeB = true) ∧
      (∀ e ∈ h1.edges, e.visitCount = traversals e h1.currentPath) ∧
      (h1.edges.map (fun e => e.visitCount)).sum = ((h1.currentPath.length - 1 : Nat) : Int) := by
    intro h1 n hn hp he
    rw [hp, he]
    refine ⟨List.Pairwise.map _ (fun e f h => h) hdup, ?_, ?_⟩
    · intro e hm
      obtain ⟨e0, -, rfl⟩ := List.mem_map.mp hm
      match n, hn with
      | [], _ => rfl
      | [_], _ => rfl
    · rw [visitSum_zeroed]
      have : n.length - 1 = 0 := by omega
      rw [this]
      rfl
  cases c with
  | startPath nodeId now =>
    obtain ⟨h1, h2, -⟩ := StartPath_currentPath g g1 nodeId now h
    exact zeroed g1 [nodeId] (by simp) h1 h2
  | updatePath near =>
    rcases UpdatePathTo_cases g g1 _ h with rfl | ⟨lastNode, node, hlast, -, hadj, -, rfl⟩
    · exact ⟨hdup, hcount, hsum⟩
    · refine ⟨pairwise_mark _ _ _ hdup, ?_, ?_⟩
      · intro e he
        simp only [] at he ⊢
        rw [MarkEdgeVisited_of_pairwise _ _ _ hdup] at he
        obtain ⟨e0, he0, rfl⟩ := List.mem_map.mp he
        rw [traversals_withVisitCount, traversals_append e0 _ _ _ hlast, ← hcount e0 he0]
      · simp only []
        rw [visitSum_mark _ _ _ hadj, hsum, List.length_append, List.length_singleton]
        have hne : g.currentPath ≠ [] := by
          intro hnil
          rw [hnil] at hlast
          simp at hlast
        have hpos : 0 < g.currentPath.length := List.length_pos.mpr hne
        omega
  | resetPath =>
    simp only [OneLinePuzzle.call, Option.some.injEq] at h
    subst h
    exact zeroed g.ResetPath [] (by simp) rfl rfl
  | checkSolution now =>
    simp only [OneLinePuzzle.call, Option.some.injEq] at h
    subst h
    obtain ⟨hp, he, -⟩ := CheckSolution_path_edges g now
    rw [hp, he]
    exact ⟨hdup, hcount, hsum⟩
  | loadLevel level =>
    simp only [OneLinePuzzle.call, Option.some.injEq] at h
    subst h
    obtain ⟨-, -, -, -, -, c6, c7⟩ := catalog_shape_check _ (LoadLevel_mem_catalog g level)
    simp only [] at c6 c7
    rw [LoadLevel_currentPath]
    refine ⟨c6, fun e he => (c7 e he).trans rfl, ?_⟩
    rw [List.map_congr_left (g := fun _ => (0 : Int)) (fun e he => c7 e he)]
    simp

theorem calls_mirror (cs : List Call) : ∀ (g g1 : OneLinePuzzle),
    g.edges.Pairwise (fun e f => ¬ e.joins f.nodeA f.nodeB = true) →
    (∀ e ∈ g.edges, e.visitCount = traversals e g.currentPath) →
    (g.edges.map (fun e => e.visitCount)).sum = ((g.currentPath.length - 1 : Nat) : Int) →
    g.calls cs = some g1 →
    (∀ e ∈ g1.edges, e.visitCount = traversals e g1.currentPath) ∧
    (g1.edges.map (fun e => e.visitCount)).sum = ((g1.currentPath.length - 1 : Nat) : Int) := by
  induction cs with
  | nil =>
    intro g g1 _ hcount hsum h
    simp only [OneLinePuzzle.calls, Option.some.injEq] at h
    subst h
    exact ⟨hcount, hsum⟩
  | cons c rest ih =>
    intro g g1 hdup hcount hsum h
    simp only [OneLinePuzzle.calls] at h
    obtain ⟨g2, h2, h⟩ := Option.bind_eq_some.mp h
    obtain ⟨k1, k2, k3⟩ := call_mirror g g2 c hdup hcount hsum h2
    exact ih g2 g1 k1 k2 k3 h

/-- The mirror property on any graph that lists no unordered pair twice,
from a state with an empty path and nothing visited: each visit count is the
number of times the path runs along the edge, and the counts add up to the
number of steps of the path. -/
theorem mirror_on_any_graph (g0 g : OneLinePuzzle) (cs : List Call)
    (hpath : g0.currentPath = [])
    (hzero : ∀ e ∈ g0.edges, e.visitCount = 0)
    (hdup : g0.edges.Pairwise (fun e f => ¬ e.joins f.nodeA f.nodeB = true))
    (h : g0.calls cs = some g) :
    (∀ e ∈ g.edges, e.visitCount = traversals e g.currentPath) ∧
    (g.edges.map (fun e => e.visitCount)).sum = ((g.currentPath.length - 1 : Nat) : Int) :=
  calls_mirror cs g0 g hdup
    (fun e he => by rw [hzero e he, hpath]; rfl)
    (by
      rw [List.map_congr_left (g := fun _ => (0 : Int)) (fun e he => hzero e he), hpath]
      simp) h

/-- Every level of the table has at least one edge. -/
theorem catalog_edges_ne_nil : ∀ p ∈ catalog, p.2 ≠ [] := by
  decide

theorem call_edges_ne_nil (g g1 : OneLinePuzzle) (c : Call) (hne : g.edges ≠ [])
    (h : g.call c = some g1) : g1.edges ≠ [] := by
  cases c with
  | startPath nodeId now =>
    obtain ⟨-, h2, -⟩ := StartPath_currentPath g g1 nodeId now h
    rw [h2]
    simpa using hne
  | updatePath near =>
    rcases UpdatePathTo_cases g g1 _ h with rfl | ⟨lastNode, node, -, -, hadj, -, rfl⟩
    · exact hne
    · obtain ⟨pre, e, post, -, -, -, h4⟩ := MarkEdgeVisited_split g.edges lastNode _ hadj
      show MarkEdgeVisited g.edges lastNode _ ≠ []
      rw [h4]
      simp
  | resetPath =>
    simp only [OneLinePuzzle.call, Option.some.injEq] at h
    subst h
    show g.edges.map _ ≠ []
    simpa using hne
  | checkSolution now =>
    simp only [OneLinePuzzle.call, Option.some.injEq] at h
    subst h
    rw [(CheckSolution_path_edges g now).2.1]
    exact hne
  | loadLevel level =>
    simp only [OneLinePuzzle.call, Option.some.injEq] at h
    subst h
    exact catalog_edges_ne_nil _ (LoadLevel_mem_catalog g level)

theorem calls_edges_ne_nil (cs : List Call) : ∀ (g g1 : OneLinePuzzle),
    g.edges ≠ [] → g.calls cs = some g1 → g1.edges ≠ [] := by
  induction cs with
  | nil =>
    intro g g1 hne h
    simp only [OneLinePuzzle.calls, Option.some.injEq] at h
    subst h
    exact hne
  | cons c rest ih =>
    intro g g1 hne h
    simp only [OneLinePuzzle.calls] at h
    obtain ⟨g2, h2, h⟩ := Option.bind_eq_some.mp h
    exact ih g2 g1 (call_edges_ne_nil g g2 c hne h2) h

/-- Claim C19.  In every state reached from a level load by `StartPath`,
`UpdatePath`, `ResetPath` and `CheckSolution` calls (and further `LoadLevel`
calls), each edge's `visitCount` equals the number of consecutive pairs of
`currentPath` that are the edge's endpoints, in either order; the visit counts
add up to `length(currentPath) - 1` when the path is non-empty and to 0 when
it is empty; and the solved branch of `CheckSolution` is taken only with
`length(currentPath) == number of edges + 1`.  The graph a level load installs
lists no unordered pair twice, which is what the first part rests on. -/
theorem visit_counts_mirror_path (g0 g : OneLinePuzzle) (level : Int) (cs : List Call)
    (h : (g0.LoadLevel level).calls cs = some g) :
    (∀ e ∈ g.edges, e.visitCount = traversals e g.currentPath) ∧
    (g.currentPath = [] → (g.edges.map (fun e => e.visitCount)).sum = 0) ∧
    (g.currentPath ≠ [] →
      (g.edges.map (fun e => e.visitCount)).sum = (g.currentPath.length : Int) - 1) ∧
    (allVisitedOnce g.edges = true → g.currentPath.length = g.edges.length + 1) := by
  have hmem := LoadLevel_mem_catalog g0 level
  obtain ⟨-, -, -, -, -, c6, c7⟩ := catalog_shape_check _ hmem
  have hne0 := catalog_edges_ne_nil _ hmem
  simp only [] at c6 c7 hne0
  obtain ⟨k1, k2⟩ := calls_mirror cs (g0.LoadLevel level) g c6
    (fun e he => by rw [c7 e he, LoadLevel_currentPath]; rfl)
    (by
      rw [List.map_congr_left (g := fun _ => (0 : Int)) (fun e he => c7 e he),
        LoadLevel_currentPath]
      simp) h
  have hedges := calls_edges_ne_nil cs (g0.LoadLevel level) g hne0 h
  refine ⟨k1, ?_, ?_, ?_⟩
  · intro hnil
    rw [k2, hnil]
    rfl
  · intro hne
    have hpos : 0 < g.currentPath.length := List.length_pos.mpr hne
    rw [k2]
    omega
  · intro hall
    have hsum := visitSum_of_once g.edges ((allVisitedOnce_iff _).mp hall)
    have hpos : 0 < g.edges.length := List.length_pos.mpr hedges
    rw [k2] at hsum
    omega

/-- The mirror property on the solved triangle: after `StartPath(0)`, the
extensions to 1, 2 and 0 and the release, every edge has been visited once, the
path has four nodes and the graph three edges. -/
theorem visit_counts_mirror_path_witness :
    (OneLinePuzzle.new.LoadLevel 1).calls
      [Call.startPath 0 0, Call.updatePath (pointerOn ⟨705, 707⟩),
       Call.updatePath (pointerOn ⟨1175, 707⟩), Call.updatePath (pointerOn ⟨940, 441⟩),
       Call.checkSolution 5] = some level1Checked ∧
    level1Checked.currentPath = [0, 1, 2, 0] ∧
    allVisitedOnce level1Checked.edges = true ∧
    level1Checked.edges.length = 3 ∧
    (∀ e ∈ level1Checked.edges, e.visitCount = traversals e level1Checked.currentPath) ∧
    (level1Checked.currentPath = [] →
      (level1Checked.edges.map (fun e => e.visitCount)).sum = 0) ∧
    (level1Checked.currentPath ≠ [] →
      (level1Checked.edges.map (fun e => e.visitCount)).sum =
        (level1Checked.currentPath.length : Int) - 1) ∧
    (allVisitedOnce level1Checked.edges = true →
      level1Checked.currentPath.length = level1Checked.edges.length + 1) :=
  ⟨rfl, by decide, by decide, by decide,
    visit_counts_mirror_path OneLinePuzzle.new level1Checked 1
      [Call.startPath 0 0, Call.updatePath (pointerOn ⟨705, 707⟩),
       Call.updatePath (pointerOn ⟨1175, 707⟩), Call.updatePath (pointerOn ⟨940, 441⟩),
       Call.checkSolution 5] rfl⟩


end StrokeX
